import Mathlib

/-!
Shallow embedding of the cryptonote-library wallet (Python) in Lean 4.

Conventions used throughout this development:
* Python `bytes` values are `List Nat`, one entry per byte (each < 256 at
  every call site we model).
* Python `dict`s (which preserve insertion order) are association lists;
  `dget`/`dset`/`dupdate` mirror `d[k]`, `d[k] = v` and in-place field
  mutation of `d[k]`. A missing key on update is Python's `KeyError`,
  modelled as an explicit error value.
* Python exceptions are the explicit `PyErr` sum; stateful wallet methods
  return `Except PyErr α × WatchWallet` where the second component is the
  wallet state at return/raise time (so partial mutation before a raise is
  observable, exactly as in the source).
* `os.urandom` draws are supplied as an ambient stream `List Nat` of the
  already-converted integers; exhausting the stream is the modelling-only
  error `modelNoEntropy` (real `urandom` never fails).
* Keccak-256 (an external library in the source) is an oracle parameter
  `HFn : List Nat → List Nat` wherever the source calls it.
-/

namespace Cryptonote

/-- Byte strings: one `Nat` per byte. -/
abbrev Bytes := List Nat

/-- Python dict lookup `d.get(k)` over an insertion-ordered association list. -/
def dget {K V : Type} [DecidableEq K] : List (K × V) → K → Option V
  | [], _ => none
  | (k', v) :: t, k => if k = k' then some v else dget t k

/-- Python dict assignment `d[k] = v`: replace in place, else append. -/
def dset {K V : Type} [DecidableEq K] : List (K × V) → K → V → List (K × V)
  | [], k, v => [(k, v)]
  | (k', v') :: t, k, v => if k = k' then (k', v) :: t else (k', v') :: dset t k v

/-- Mutation of a dict entry in place (`d[k].field = ...`); `none` is Python's KeyError. -/
def dupdate {K V : Type} [DecidableEq K] : List (K × V) → K → (V → V) → Option (List (K × V))
  | [], _, _ => none
  | (k', v) :: t, k, f =>
    if k = k' then some ((k', f v) :: t)
    else (dupdate t k f).map (fun t' => (k', v) :: t')

/-- Membership test `k in d`. -/
def dmem {K V : Type} [DecidableEq K] (m : List (K × V)) (k : K) : Bool :=
  (dget m k).isSome

/-! ## var_int.py -/

/-- Fuel-driven loop of `to_var_int`; the fuel (set to `i` by the wrapper) dominates
the number of 7-bit digits, so the base case with a small head mirrors the final
`result += bytes([i])` of the source exactly. -/
def toVarIntGo : Nat → Nat → Bytes
  | 0, i => [i]
  | fuel + 1, i =>
    if i < 0x80 then [i]
    else ((i % 0x80) + 0x80) :: toVarIntGo fuel (i / 0x80)

/-- Source `to_var_int(i)`: base-128 continuation-bit encoding
(`while i >= 0x80: emit (i & 0x7F) | 0x80; i >>= 7`, then emit `i`). -/
def to_var_int (i : Nat) : Bytes := toVarIntGo i i

/-- Fuel-driven loop of `from_var_int`; each iteration consumes one byte of `i`,
so fuel `i.length + 1` is always enough, and running off the end of the bytes is
Python's `IndexError`, here `none`. -/
def fromVarIntGo (i : Bytes) : Nat → Nat → Nat → Nat → Option (Nat × Nat)
  | 0, _, _, _ => none
  | fuel + 1, cursor, shift, acc =>
    match i.get? cursor with
    | none => none
    | some b =>
      let acc' := acc + (b % 0x80) * 2 ^ shift
      if b < 0x80 then some (acc', cursor + 1)
      else fromVarIntGo i fuel (cursor + 1) (shift + 7) acc'

/-- Source `from_var_int(i, cursor)`: decode the continuation-bit form starting at
`cursor`, returning `(value, new_cursor)`; `none` models the `IndexError` raised
when the bytes run out mid-value. -/
def from_var_int (i : Bytes) (cursor : Nat) : Option (Nat × Nat) :=
  fromVarIntGo i (i.length + 1) cursor 0 0

/-! ## crypto.py data model -/

/-- Source `InputState` enum. -/
inductive InputState
  | Spendable
  | Transmitted
  | Spent
deriving DecidableEq

/-- Numeric `.value` of an `InputState` (Python `Enum` payload). -/
def InputState.val : InputState → Nat
  | .Spendable => 0
  | .Transmitted => 1
  | .Spent => 2

/-- Source `OutputIndex`: transaction hash plus output position, structurally equatable. -/
structure OutputIndex where
  tx_hash : Bytes
  index : Nat
deriving DecidableEq

/-- Source `OutputInfo`, merged with the fields the `MoneroOutputInfo` subclass adds
(`subaddress`, `amount_key`, `commitment`) and the signing-time scratch fields
(`mixins`, `ring`, `image`) that Python attaches dynamically. -/
structure OutputInfo where
  index : OutputIndex
  timelock : Int
  amount : Int
  spend_key : Bytes
  state : InputState
  mixins : List Int
  ring : List (Bytes × Bytes)
  image : Bytes
  subaddress : Nat × Nat
  amount_key : Bytes
  commitment : Bytes
deriving DecidableEq

/-- The JSON shape produced by `MoneroOutputInfo.to_json` (hex strings are kept
as raw bytes: `bytes.fromhex` and `.hex()` are mutually inverse). -/
structure OutputJson where
  hash : Bytes
  index : Nat
  timelock : Int
  amount : Int
  spend_key : Bytes
  state : Nat
  subaddress : Nat × Nat
  amount_key : Bytes
  commitment : Bytes
deriving DecidableEq

/-- Source `OutputInfo.to_json` / `MoneroOutputInfo.to_json`. -/
def OutputInfo.to_json (o : OutputInfo) : OutputJson :=
  ⟨o.index.tx_hash, o.index.index, o.timelock, o.amount, o.spend_key,
    o.state.val, o.subaddress, o.amount_key, o.commitment⟩

/-- Python `InputState(n)`; invalid encodings raise ValueError in Python, a corner
unreachable from `to_json` output, so the model totalises it with `Spendable`. -/
def InputState.ofVal (n : Nat) : InputState :=
  if n = 1 then .Transmitted else if n = 2 then .Spent else .Spendable

/-- Source `MoneroOutputInfo.from_json` (scratch fields start unset, state restored). -/
def monero_output_from_json (j : OutputJson) : OutputInfo :=
  { index := ⟨j.hash, j.index⟩
    timelock := j.timelock
    amount := j.amount
    spend_key := j.spend_key
    state := InputState.ofVal j.state
    mixins := []
    ring := []
    image := []
    subaddress := j.subaddress
    amount_key := j.amount_key
    commitment := j.commitment }

/-! ## blockchain classes -/

/-- Source `AbstractInput`: `MinerInput` or `Input`. -/
inductive TxInput
  | minerInput (height : Int)
  | txin (mixins : List Int) (image : Bytes)
deriving DecidableEq

/-- Source `AbstractOutput`: `MinerOutput(key, amount)` or `Output(key, encrypted
amount, commitment)`. -/
inductive TxOutput
  | minerOutput (key : Bytes) (amount : Int)
  | txout (key : Bytes) (amount : Bytes) (commitment : Bytes)
deriving DecidableEq

/-- Source `Transaction` after construction: raw fields plus the `Rs` and
`payment_IDs` lists the extra-field scan derives. -/
structure Transaction where
  tx_hash : Bytes
  unlock_time : Int
  inputs : List TxInput
  outputs : List TxOutput
  extra : Bytes
  Rs : List Bytes
  payment_IDs : List Bytes
deriving DecidableEq

/-- Source `BlockHeader` (all fields, though the wallet reads only `miner_tx_hash`). -/
structure BlockHeader where
  hash : Bytes
  height : Int
  depth : Int
  previous : Bytes
  time : Int
  orphaned : Bool
  cummulative_difficulty : Int
  difficulty : Int
  miner_tx_hash : Bytes
  txs : Int
deriving DecidableEq

/-- Source `Block`: header plus ordered transaction hashes. -/
structure Block where
  header : BlockHeader
  hashes : List Bytes
deriving DecidableEq

end Cryptonote

namespace Cryptonote

/-! ## Exceptions and collaborator interfaces -/

/-- Python exceptions the modelled paths can raise.  `genericFeeExc` is the
ill-typed `raise Exception(FeeError, "Fee is too low.")` of
`WatchWallet.prepare_send` — a plain `Exception` whose first argument is the
`FeeError` class, distinct from actually raising `FeeError` (`feeError`).
`modelNoEntropy` is a modelling artifact for an exhausted randomness stream. -/
inductive PyErr
  | keyError
  | indexError
  | rpcError
  | decodeError
  | mixinError
  | balanceError
  | feeError
  | genericFeeExc
  | genericExc
  | addressError
  | modelNoEntropy
deriving DecidableEq

/-- The ledger-node collaborator (`RPC`), as a bundle of total query functions:
the wallet treats it as an oracle.  `publish_ok` is `publish_transaction`
succeeding; `false` models it raising `RPCError`. -/
structure RPCI where
  get_block_count : Nat
  get_block_hash : Int → Bytes
  get_block : Bytes → Block
  get_transaction : Bytes → Transaction
  get_o_indexes : Bytes → List Int
  get_outs : Int → Bytes × Bytes
  get_fee_estimate : Int × Int
  is_key_image_spent : Bytes → Bool
  publish_ok : Bytes → Bool

/-- The abstract `Crypto` capability set (`crypto.py`), as the record of the
members `WatchWallet` consults.  Variants (Monero and friends) are values of
this type. -/
structure CryptoI where
  confirmations : Nat
  lock_blocks : Nat
  miner_lock_blocks : Nat
  oldest_txo : Int
  required_mixins : Nat
  network_bytes : List Bytes
  network_byte_length : Nat
  payment_id_leading : Bool
  payment_id_lengths : List Nat
  address_regex_len : Nat
  integrated_address_regex_len : Nat
  output_from_json : OutputJson → OutputInfo
  create_shared_key : Bytes → Bytes → Except PyErr Bytes
  get_payment_IDs : List Bytes → List Bytes → List Bytes
  can_spend_output :
    List (Bytes × (Nat × Nat)) → Bytes → Transaction → Nat → Except PyErr (Option OutputInfo)
  get_minimum_fee : Int × Int → Nat → Nat → List (List Int) → Nat → Int → Int

/-- Mutable state of a `WatchWallet` (the `crypto`/`rpc` collaborators are passed
to each operation instead of being stored). -/
structure WatchWallet where
  public_spend_key : Bytes
  private_view_key : Bytes
  public_view_key : Bytes
  confirmation_queue : List Block
  inputs : List (OutputIndex × OutputInfo)
  unique_factors : List (Bytes × (Nat × Nat))
  last_block : Int
deriving DecidableEq

/-! ## WatchWallet.can_spend -/

/-- Loop `for R in tx.Rs: shared_keys.append(crypto.create_shared_key(view, R))`;
a raise inside `create_shared_key` propagates. -/
def sharedKeysLoop (c : CryptoI) (view : Bytes) : List Bytes → Except PyErr (List Bytes)
  | [] => .ok []
  | R :: t => do
    let k ← c.create_shared_key view R
    let rest ← sharedKeysLoop c view t
    return k :: rest

/-- Inner loop of `can_spend`: try one shared key against each output position not
already found spendable, accumulating `(spendable_outputs, result)`. -/
def canSpendInner (c : CryptoI) (uf : List (Bytes × (Nat × Nat))) (tx : Transaction)
    (sk : Bytes) :
    List Nat → List Nat × List (OutputIndex × OutputInfo) →
    Except PyErr (List Nat × List (OutputIndex × OutputInfo))
  | [], acc => .ok acc
  | o :: os, (found, result) =>
    if found.contains o then canSpendInner c uf tx sk os (found, result)
    else do
      match ← c.can_spend_output uf sk tx o with
      | none => canSpendInner c uf tx sk os (found, result)
      | some info =>
        canSpendInner c uf tx sk os (found ++ [o], dset result ⟨tx.tx_hash, o⟩ info)

/-- Outer loop of `can_spend` over the shared keys. -/
def canSpendOuter (c : CryptoI) (uf : List (Bytes × (Nat × Nat))) (tx : Transaction) :
    List Bytes → List Nat × List (OutputIndex × OutputInfo) →
    Except PyErr (List Nat × List (OutputIndex × OutputInfo))
  | [], acc => .ok acc
  | sk :: sks, acc => do
    let acc' ← canSpendInner c uf tx sk (List.range tx.outputs.length) acc
    canSpendOuter c uf tx sks acc'

/-- Merge loop of `can_spend`: `for txo in result: if txo in self.inputs: continue;
self.inputs[txo] = result[txo]` — first discovery wins. -/
def mergeTxos (m : List (OutputIndex × OutputInfo)) :
    List (OutputIndex × OutputInfo) → List (OutputIndex × OutputInfo)
  | [] => m
  | (k, v) :: t => if dmem m k then mergeTxos m t else mergeTxos (dset m k v) t

/-- Source `WatchWallet.can_spend`: derive shared keys from the transaction's Rs,
scan every output for ownership, then merge newly owned outputs into the wallet. -/
def can_spend (c : CryptoI) (w : WatchWallet) (tx : Transaction) :
    Except PyErr (List Bytes × List (OutputIndex × OutputInfo)) × WatchWallet :=
  match (do
    let sks ← sharedKeysLoop c w.private_view_key tx.Rs
    let pids := c.get_payment_IDs sks tx.payment_IDs
    let res ← canSpendOuter c w.unique_factors tx sks ([], [])
    return (pids, res.2) :
      Except PyErr (List Bytes × List (OutputIndex × OutputInfo))) with
  | .error e => (.error e, w)
  | .ok (pids, result) => (.ok (pids, result), { w with inputs := mergeTxos w.inputs result })

/-! ## WatchWallet.poll_blocks -/

/-- Heights fetched by the first loop of `poll_blocks`:
Python `range(last_block + 1, height)`. -/
def pollRange (last_block : Int) (height : Nat) : List Int :=
  (List.range ((height - (last_block + 1)).toNat)).map (fun b : Nat => last_block + 1 + (b : Int))

/-- Loop `for tx in usable.hashes + [miner_tx_hash]` scanning each transaction with
`can_spend` and folding its new inputs into the running result
(`result[index] = new_inputs[index]`). -/
def scanTxs (c : CryptoI) (rpc : RPCI) (w : WatchWallet)
    (result : List (OutputIndex × OutputInfo)) :
    List Bytes → Except PyErr (List (OutputIndex × OutputInfo)) × WatchWallet
  | [] => (.ok result, w)
  | h :: t =>
    match can_spend c w (rpc.get_transaction h) with
    | (.error e, w') => (.error e, w')
    | (.ok (_, new_inputs), w') =>
      scanTxs c rpc w' (new_inputs.foldl (fun r kv => dset r kv.1 kv.2) result) t

/-- Confirmation-queue drain of `poll_blocks`: while the queue is longer than the
required confirmations, pop the oldest block and scan its transactions. -/
def pollLoop (c : CryptoI) (rpc : RPCI) :
    List Block → List (OutputIndex × OutputInfo) → WatchWallet →
    Except PyErr (List (OutputIndex × OutputInfo)) × WatchWallet
  | [], result, w => (.ok result, { w with confirmation_queue := [] })
  | usable :: rest, result, w =>
    if rest.length + 1 > c.confirmations then
      match scanTxs c rpc { w with confirmation_queue := rest } result
          (usable.hashes ++ [usable.header.miner_tx_hash]) with
      | (.error e, w') => (.error e, w')
      | (.ok result', w') => pollLoop c rpc rest result' w'
    else (.ok result, { w with confirmation_queue := usable :: rest })

/-- Source `WatchWallet.poll_blocks`: enqueue all blocks in
`(last_block, height)`, advance `last_block` to `height - 1`, then drain the
confirmation queue, returning only the outputs discovered during this call. -/
def poll_blocks (c : CryptoI) (rpc : RPCI) (w : WatchWallet) :
    Except PyErr (List (OutputIndex × OutputInfo)) × WatchWallet :=
  let height := rpc.get_block_count
  let queue := w.confirmation_queue ++
    (pollRange w.last_block height).map (fun b => rpc.get_block (rpc.get_block_hash b))
  let w' := { w with confirmation_queue := queue,
                     last_block := max w.last_block ((height : Int) - 1) }
  pollLoop c rpc w'.confirmation_queue [] w'

end Cryptonote

namespace Cryptonote

/-! ## WatchWallet.prepare_send -/

/-- One entry of `context["inputs"]`: the `to_json` dict of the selected input,
plus the `"mixin_index"` key `prepare_send` adds right after sorting the mixins. -/
structure CtxInput where
  json : OutputJson
  mixin_index : Nat
deriving DecidableEq

/-- The `context` dict `prepare_send` builds and `finalize_send`/`Wallet.sign`
consume.  Ring entries keep raw bytes (the source stores their hex strings). -/
structure SendContext where
  inputs : List CtxInput
  mixins : List (List Int)
  ring : List (List (Bytes × Bytes))
  outputs : List (List Char × Int)
  fee : Int
deriving DecidableEq

/-- Insertion of one element into an ascending list (helper for `pySortInt`). -/
def pySortIntIns (x : Int) : List Int → List Int
  | [] => [x]
  | y :: t => if x ≤ y then x :: y :: t else y :: pySortIntIns x t

/-- Python `list.sort()` on integers (ascending); insertion sort has the same
observable result. -/
def pySortInt : List Int → List Int
  | [] => []
  | x :: t => pySortIntIns x (pySortInt t)

/-- Python `list.index(x)`: position of the first occurrence (total here; the
lookup target is always present at the call site). -/
def idxOfInt : List Int → Int → Nat
  | [], _ => 0
  | y :: t, x => if y = x then 0 else idxOfInt t x + 1

/-- Mixin sampling loop of `prepare_send`: keep drawing
`oldest_txo + urandom % mixins_available`, skipping duplicates, until the ring
has `required_mixins` members.  Each recursion consumes one stream draw; an
empty stream is the modelling-only `none`. -/
def sampleMixins (required : Nat) (oldest : Int) (avail : Int) :
    List Int → List Nat → Option (List Int × List Nat)
  | acc, rand =>
    if acc.length = required then some (acc, rand)
    else
      match rand with
      | [] => none
      | d :: rest =>
        let new_mixin := oldest + (d : Int) % avail
        if acc.contains new_mixin then sampleMixins required oldest avail acc rest
        else sampleMixins required oldest avail (acc ++ [new_mixin]) rest

/-- Input-selection loop of `prepare_send`: skip non-Spendable, timelocked or
sub-minimum inputs; for each selected input fetch its true global index, sample
and sort a ring, record the true index's rank and the ring members, subtract the
amount from the needed value, and stop once the value is covered. -/
def selectInputs (c : CryptoI) (rpc : RPCI) (height : Int) (avail : Int)
    (minimum_input : Int) :
    List (OutputIndex × OutputInfo) → Int → List Nat → SendContext →
    Except PyErr (Int × SendContext × List Nat)
  | [], value, rand, ctx => .ok (value, ctx, rand)
  | (_, info) :: rest, value, rand, ctx =>
    if info.state ≠ InputState.Spendable ∨ info.timelock ≥ height ∨
        info.amount < minimum_input then
      selectInputs c rpc height avail minimum_input rest value rand ctx
    else
      match (rpc.get_o_indexes info.index.tx_hash).get? info.index.index with
      | none => .error .indexError
      | some actual =>
        match sampleMixins c.required_mixins c.oldest_txo avail [actual] rand with
        | none => .error .modelNoEntropy
        | some (mixins_i, rand') =>
          let sorted := pySortInt mixins_i
          let ring_i := sorted.map (fun m => rpc.get_outs m)
          let ctx' : SendContext :=
            { ctx with
              inputs := ctx.inputs ++ [⟨info.to_json, idxOfInt sorted actual⟩]
              mixins := ctx.mixins ++ [sorted]
              ring := ctx.ring ++ [ring_i] }
          let value' := value - info.amount
          if value' ≤ 0 then .ok (value', ctx', rand')
          else selectInputs c rpc height avail minimum_input rest value' rand' ctx'

/-- Final loop of `prepare_send` (and the whole body of the state assignment in
`finalize_send`): set the state of every input referenced by the context entries,
in order; a missing key raises `KeyError` leaving the earlier assignments done. -/
def markStates (s : InputState) :
    List (OutputIndex × OutputInfo) → List CtxInput →
    Except PyErr Unit × List (OutputIndex × OutputInfo)
  | m, [] => (.ok (), m)
  | m, i :: t =>
    match dupdate m ⟨i.json.hash, i.json.index⟩ (fun info => { info with state := s }) with
    | none => (.error .keyError, m)
    | some m' => markStates s m' t

/-- The `newest_txo` computation at the top of `prepare_send`: look up the most
recent miner-unlocked block, take its last transaction (or its miner
transaction), and take the last of its global output indices; `none` is the
`IndexError` Python raises when that index list is empty. -/
def newest_txo_of (c : CryptoI) (rpc : RPCI) : Option Int :=
  let height : Int := rpc.get_block_count
  let newest_unlocked_block := rpc.get_block (rpc.get_block_hash (height - c.miner_lock_blocks))
  let newest_tx :=
    match newest_unlocked_block.hashes.getLast? with
    | some h => h
    | none => newest_unlocked_block.header.miner_tx_hash
  (rpc.get_o_indexes newest_tx).getLast?

/-- Source `WatchWallet.prepare_send`, acting on the inputs dict it was told to
use (`self.inputs`, or the `inputs_override` dict): mixin-availability check,
greedy input selection, balance check, fee check (whose failure raises the plain
`Exception(FeeError, ...)`), and only then the `Transmitted` marking and the
destination output.  Returns the context plus the resulting inputs dict. -/
def prepare_send_core (c : CryptoI) (rpc : RPCI) (rand : List Nat)
    (inputs : List (OutputIndex × OutputInfo)) (dest : List Char)
    (amount fee minimum_input : Int) :
    Except PyErr SendContext × List (OutputIndex × OutputInfo) :=
  match newest_txo_of c rpc with
  | none => (.error .indexError, inputs)
  | some newest_txo =>
    if newest_txo - c.oldest_txo < (c.required_mixins : Int) then (.error .mixinError, inputs)
    else
      match selectInputs c rpc (rpc.get_block_count : Int) (newest_txo - c.oldest_txo)
          minimum_input inputs (amount + fee) rand ⟨[], [], [], [], fee⟩ with
      | .error e => (.error e, inputs)
      | .ok (value, ctx, _) =>
        if value > 0 then (.error .balanceError, inputs)
        else if fee < c.get_minimum_fee rpc.get_fee_estimate ctx.inputs.length 2
            ctx.mixins 255 fee then
          (.error .genericFeeExc, inputs)
        else
          match markStates .Transmitted inputs ctx.inputs with
          | (.error e, m') => (.error e, m')
          | (.ok _, m') =>
            (.ok { ctx with outputs := ctx.outputs ++ [(dest, amount)] }, m')

/-- `prepare_send` on the wallet itself (no `inputs_override`). -/
def prepare_send (c : CryptoI) (rpc : RPCI) (rand : List Nat) (w : WatchWallet)
    (dest : List Char) (amount fee minimum_input : Int) :
    Except PyErr SendContext × WatchWallet :=
  match prepare_send_core c rpc rand w.inputs dest amount fee minimum_input with
  | (res, m') => (res, { w with inputs := m' })

/-! ## WatchWallet.finalize_send / rebuild_input_states / load_state -/

/-- Source `WatchWallet.finalize_send`: publish if asked (an `RPCError` downgrades
success), then set every referenced input to `Spent` on success and `Spendable`
otherwise, unconditionally on its previous state. -/
def finalize_send (rpc : RPCI) (w : WatchWallet) (success : Bool) (ctx : SendContext)
    (serialization : Bytes) : Except PyErr Bool × WatchWallet :=
  let success' := success && rpc.publish_ok serialization
  let st := if success' then InputState.Spent else InputState.Spendable
  match markStates st w.inputs ctx.inputs with
  | (.error e, m') => (.error e, { w with inputs := m' })
  | (.ok _, m') => (.ok success', { w with inputs := m' })

/-- One entry of the `key_images` argument of `rebuild_input_states`
(`{"hash": ..., "index": ..., "image": ...}`). -/
structure KeyImageJson where
  hash : Bytes
  index : Nat
  image : Bytes
deriving DecidableEq

/-- Source `WatchWallet.rebuild_input_states`: for each supplied key image the
node reports spent, set the matching input's state to `Spent` (regardless of its
previous state; a missing entry raises `KeyError`). -/
def rebuild_input_states (rpc : RPCI) (w : WatchWallet) :
    List KeyImageJson → Except PyErr Unit × WatchWallet
  | [] => (.ok (), w)
  | im :: t =>
    if rpc.is_key_image_spent im.image then
      match dupdate w.inputs ⟨im.hash, im.index⟩
          (fun info => { info with state := InputState.Spent }) with
      | none => (.error .keyError, w)
      | some m' => rebuild_input_states rpc { w with inputs := m' } t
    else rebuild_input_states rpc w t

/-- The persisted wallet state consumed by `load_state`
(`{last_block, inputs, unique_factors}`). -/
structure SavedState where
  last_block : Int
  inputs : List OutputJson
  unique_factors : List (Bytes × (Nat × Nat))
deriving DecidableEq

/-- Source `WatchWallet.load_state`: an `int` state is adopted as `last_block`
directly; a saved dict sets `last_block` to the stored value minus 10 and merges
the stored inputs and unique factors; then `poll_blocks` runs unless
`last_block` is the test sentinel -1. -/
def load_state (c : CryptoI) (rpc : RPCI) (w : WatchWallet) (st : Sum Int SavedState) :
    Except PyErr Unit × WatchWallet :=
  let w' :=
    match st with
    | .inl n => { w with last_block := n }
    | .inr s =>
      { w with
        last_block := s.last_block - 10
        inputs := s.inputs.foldl
          (fun m j =>
            let o := c.output_from_json j
            dset m o.index o) w.inputs
        unique_factors := s.unique_factors.foldl
          (fun u kv => dset u kv.1 kv.2) w.unique_factors }
  if w'.last_block ≠ -1 then
    match poll_blocks c rpc w' with
    | (.error e, w2) => (.error e, w2)
    | (.ok _, w2) => (.ok (), w2)
  else (.ok (), w')

end Cryptonote

namespace Cryptonote

/-! ## Dict lemmas -/

lemma dget_dset {K V : Type} [DecidableEq K] (m : List (K × V)) (k : K) (v : V) (idx : K) :
    dget (dset m k v) idx = if idx = k then some v else dget m idx := by
  induction m with
  | nil => by_cases h : idx = k <;> simp [dset, dget, h]
  | cons p t ih =>
    obtain ⟨k', v'⟩ := p
    by_cases hk : k = k'
    · subst hk
      by_cases h : idx = k <;> simp [dset, dget, h]
    · by_cases h : idx = k'
      · subst h
        simp [dset, dget, hk, Ne.symm hk]
      · simp [dset, dget, hk, h, ih]

lemma dupdate_some {K V : Type} [DecidableEq K] :
    ∀ (m : List (K × V)) (k : K) (f : V → V) (m' : List (K × V)),
      dupdate m k f = some m' →
      ∀ idx, dget m' idx = if idx = k then (dget m k).map f else dget m idx := by
  intro m
  induction m with
  | nil => intro k f m' h; simp [dupdate] at h
  | cons p t ih =>
    intro k f m' h idx
    obtain ⟨k', v⟩ := p
    by_cases hk : k = k'
    · subst hk
      have heq : dupdate ((k, v) :: t) k f = some ((k, f v) :: t) := by simp [dupdate]
      have hm' : ((k, f v) :: t) = m' := Option.some.inj (heq.symm.trans h)
      subst hm'
      by_cases hi : idx = k <;> simp [dget, hi]
    · have heq : dupdate ((k', v) :: t) k f =
          (dupdate t k f).map (fun t' => (k', v) :: t') := by simp [dupdate, hk]
      rw [heq] at h
      cases ht : dupdate t k f with
      | none => rw [ht] at h; simp at h
      | some t' =>
        rw [ht] at h
        simp only [Option.map_some', Option.some.injEq] at h
        subst h
        by_cases hi : idx = k'
        · subst hi
          simp [dget, hk, Ne.symm hk]
        · simp [dget, hi, hk, ih k f t' ht idx]

lemma dget_of_mem_nodup {K V : Type} [DecidableEq K] :
    ∀ (m : List (K × V)) (k : K) (v : V),
      (k, v) ∈ m → (m.map Prod.fst).Nodup → dget m k = some v := by
  intro m
  induction m with
  | nil => intro k v h _; simp at h
  | cons p t ih =>
    intro k v h hnd
    obtain ⟨k', v'⟩ := p
    simp only [List.map_cons, List.nodup_cons] at hnd
    rcases List.mem_cons.mp h with h1 | h2
    · obtain ⟨hk, hv⟩ := Prod.mk.injEq .. ▸ h1
      simp_all [dget]
    · have hne : k ≠ k' := by
        intro he
        subst he
        exact hnd.1 (List.mem_map.mpr ⟨(k, v), h2, rfl⟩)
      simp [dget, hne, ih k v h2 hnd.2]

lemma markStates_spec (s : InputState) :
    ∀ (ctxs : List CtxInput) (m : List (OutputIndex × OutputInfo)) (idx : OutputIndex),
      dget (markStates s m ctxs).2 idx = dget m idx ∨
      ((∃ e ∈ ctxs, (⟨e.json.hash, e.json.index⟩ : OutputIndex) = idx) ∧
        ∃ info, dget m idx = some info ∧
          dget (markStates s m ctxs).2 idx = some { info with state := s }) := by
  intro ctxs
  induction ctxs with
  | nil => intro m idx; left; rfl
  | cons i t ih =>
    intro m idx
    set key : OutputIndex := ⟨i.json.hash, i.json.index⟩ with hkey
    cases hdu : dupdate m key (fun info => { info with state := s }) with
    | none => left; simp [markStates, ← hkey, hdu]
    | some m1 =>
      have hstep : (markStates s m (i :: t)).2 = (markStates s m1 t).2 := by
        simp [markStates, ← hkey, hdu]
      have hm1 := dupdate_some m _ _ m1 hdu
      rw [hstep]
      by_cases hi : idx = key
      · subst hi
        have hk1 : dget m1 key = (dget m key).map (fun info => { info with state := s }) := by
          rw [hm1 key, if_pos rfl]
        rcases ih m1 key with h | ⟨_, info1, h1, h2⟩
        · cases hm : dget m key with
          | none => left; rw [h, hk1, hm]; rfl
          | some info =>
            right
            exact ⟨⟨i, List.mem_cons_self i t, rfl⟩, info, rfl, by rw [h, hk1, hm]; rfl⟩
        · rw [hk1] at h1
          cases hm : dget m key with
          | none => rw [hm] at h1; simp at h1
          | some info =>
            rw [hm] at h1
            simp only [Option.map_some', Option.some.injEq] at h1
            right
            refine ⟨⟨i, List.mem_cons_self i t, rfl⟩, info, rfl, ?_⟩
            rw [h2, ← h1]
      · have hk2 : dget m1 idx = dget m idx := by rw [hm1 idx, if_neg hi]
        rcases ih m1 idx with h | ⟨⟨e, he, hek⟩, info1, h1, h2⟩
        · left; rw [h, hk2]
        · right
          exact ⟨⟨e, List.mem_cons_of_mem i he, hek⟩, info1, hk2.symm.trans h1, h2⟩

lemma rebuild_spec (rpc : RPCI) :
    ∀ (images : List KeyImageJson) (w : WatchWallet) (idx : OutputIndex),
      dget (rebuild_input_states rpc w images).2.inputs idx = dget w.inputs idx ∨
      ∃ info, dget w.inputs idx = some info ∧
        dget (rebuild_input_states rpc w images).2.inputs idx =
          some { info with state := InputState.Spent } := by
  intro images
  induction images with
  | nil => intro w idx; left; rfl
  | cons im t ih =>
    intro w idx
    set key : OutputIndex := ⟨im.hash, im.index⟩ with hkey
    by_cases hsp : rpc.is_key_image_spent im.image
    · cases hdu : dupdate w.inputs key
          (fun info => { info with state := InputState.Spent }) with
      | none => left; simp [rebuild_input_states, hsp, ← hkey, hdu]
      | some m1 =>
        have hstep : (rebuild_input_states rpc w (im :: t)).2 =
            (rebuild_input_states rpc { w with inputs := m1 } t).2 := by
          simp [rebuild_input_states, hsp, ← hkey, hdu]
        have hm1 := dupdate_some w.inputs _ _ m1 hdu
        rw [hstep]
        have hwm1 : ({ w with inputs := m1 } : WatchWallet).inputs = m1 := rfl
        by_cases hi : idx = key
        · subst hi
          have hk1 : dget m1 key =
              (dget w.inputs key).map (fun info => { info with state := InputState.Spent }) := by
            rw [hm1 key, if_pos rfl]
          rcases ih { w with inputs := m1 } key with h | ⟨info1, h1, h2⟩
          · rw [hwm1] at h
            cases hm : dget w.inputs key with
            | none => left; rw [h, hk1, hm]; rfl
            | some info =>
              right
              exact ⟨info, rfl, by rw [h, hk1, hm]; rfl⟩
          · rw [hwm1] at h1
            rw [hk1] at h1
            cases hm : dget w.inputs key with
            | none => rw [hm] at h1; simp at h1
            | some info =>
              rw [hm] at h1
              simp only [Option.map_some', Option.some.injEq] at h1
              right
              refine ⟨info, rfl, ?_⟩
              rw [h2, ← h1]
        · have hk2 : dget m1 idx = dget w.inputs idx := by rw [hm1 idx, if_neg hi]
          rcases ih { w with inputs := m1 } idx with h | ⟨info1, h1, h2⟩
          · left; rw [h, hwm1, hk2]
          · right
            rw [hwm1] at h1
            exact ⟨info1, hk2.symm.trans h1, h2⟩
    · have hstep : (rebuild_input_states rpc w (im :: t)).2 =
          (rebuild_input_states rpc w t).2 := by
        simp [rebuild_input_states, hsp]
      rw [hstep]
      exact ih w idx

end Cryptonote

namespace Cryptonote

lemma selectInputs_mem (c : CryptoI) (rpc : RPCI) (ht avail minin : Int) :
    ∀ (l : List (OutputIndex × OutputInfo)) (value : Int) (rand : List Nat)
      (ctx : SendContext) (r : Int × SendContext × List Nat),
      selectInputs c rpc ht avail minin l value rand ctx = Except.ok r →
      ∀ e ∈ r.2.1.inputs, e ∈ ctx.inputs ∨
        ∃ p ∈ l, p.2.state = InputState.Spendable ∧ e.json = p.2.to_json := by
  intro l
  induction l with
  | nil =>
    intro value rand ctx r hsel e he
    simp only [selectInputs] at hsel
    cases hsel
    exact Or.inl he
  | cons p rest ih =>
    intro value rand ctx r hsel e he
    obtain ⟨k, info⟩ := p
    by_cases hskip : info.state ≠ InputState.Spendable ∨ info.timelock ≥ ht ∨
        info.amount < minin
    · rw [selectInputs, if_pos hskip] at hsel
      rcases ih value rand ctx r hsel e he with h | ⟨q, hq, hs, hj⟩
      · exact Or.inl h
      · exact Or.inr ⟨q, List.mem_cons_of_mem _ hq, hs, hj⟩
    · have hstate : info.state = InputState.Spendable := by
        push_neg at hskip
        exact hskip.1
      rw [selectInputs, if_neg hskip] at hsel
      cases hget : (rpc.get_o_indexes info.index.tx_hash).get? info.index.index with
      | none => rw [hget] at hsel; dsimp only at hsel; cases hsel
      | some actual =>
        rw [hget] at hsel
        dsimp only at hsel
        cases hsam : sampleMixins c.required_mixins c.oldest_txo avail [actual] rand with
        | none => rw [hsam] at hsel; dsimp only at hsel; cases hsel
        | some pr =>
          obtain ⟨mixins_i, rand'⟩ := pr
          rw [hsam] at hsel
          dsimp only at hsel
          by_cases hval : value - info.amount ≤ 0
          · rw [if_pos hval] at hsel
            cases hsel
            rcases List.mem_append.mp he with h | h
            · exact Or.inl h
            · simp only [List.mem_singleton] at h
              subst h
              exact Or.inr ⟨(k, info), List.mem_cons_self _ _, hstate, rfl⟩
          · rw [if_neg hval] at hsel
            rcases ih _ _ _ r hsel e he with h | ⟨q, hq, hs, hj⟩
            · rcases List.mem_append.mp h with h2 | h2
              · exact Or.inl h2
              · simp only [List.mem_singleton] at h2
                subst h2
                exact Or.inr ⟨(k, info), List.mem_cons_self _ _, hstate, rfl⟩
            · exact Or.inr ⟨q, List.mem_cons_of_mem _ hq, hs, hj⟩

lemma markStates_first (s : InputState) :
    ∀ (ctxs : List CtxInput) (m : List (OutputIndex × OutputInfo)),
      (markStates s m ctxs).1 = Except.error PyErr.keyError ∨
      (markStates s m ctxs).1 = Except.ok () := by
  intro ctxs
  induction ctxs with
  | nil => intro m; right; rfl
  | cons i t ih =>
    intro m
    cases hdu : dupdate m ⟨i.json.hash, i.json.index⟩ (fun info => { info with state := s }) with
    | none => left; simp [markStates, hdu]
    | some m1 =>
      have : (markStates s m (i :: t)) = markStates s m1 t := by
        simp [markStates, hdu]
      rw [this]
      exact ih m1

lemma prepare_send_core_cases (c : CryptoI) (rpc : RPCI) (rand : List Nat)
    (inputs : List (OutputIndex × OutputInfo)) (dest : List Char)
    (amount fee minimum_input : Int) :
    (prepare_send_core c rpc rand inputs dest amount fee minimum_input).2 = inputs ∨
    ∃ ctx : SendContext,
      (∀ e ∈ ctx.inputs, ∃ p ∈ inputs,
          p.2.state = InputState.Spendable ∧ e.json = p.2.to_json) ∧
      (prepare_send_core c rpc rand inputs dest amount fee minimum_input).2 =
        (markStates InputState.Transmitted inputs ctx.inputs).2 ∧
      ((prepare_send_core c rpc rand inputs dest amount fee minimum_input).1 =
          Except.error PyErr.keyError ∨
        ∃ ctx2, (prepare_send_core c rpc rand inputs dest amount fee minimum_input).1 =
          Except.ok ctx2) := by
  unfold prepare_send_core
  cases hnew : newest_txo_of c rpc with
  | none => left; rfl
  | some newest_txo =>
    dsimp only
    by_cases hmix : newest_txo - c.oldest_txo < (c.required_mixins : Int)
    · rw [if_pos hmix]; left; rfl
    · rw [if_neg hmix]
      cases hsel : selectInputs c rpc (rpc.get_block_count : Int) (newest_txo - c.oldest_txo)
          minimum_input inputs (amount + fee) rand ⟨[], [], [], [], fee⟩ with
      | error e => left; rfl
      | ok r =>
        obtain ⟨value, ctx, rand2⟩ := r
        dsimp only
        by_cases hval : value > 0
        · rw [if_pos hval]; left; rfl
        · rw [if_neg hval]
          by_cases hfee : fee < c.get_minimum_fee rpc.get_fee_estimate ctx.inputs.length 2
              ctx.mixins 255 fee
          · rw [if_pos hfee]; left; rfl
          · rw [if_neg hfee]
            right
            refine ⟨ctx, ?_, ?_, ?_⟩
            · intro e he
              rcases selectInputs_mem c rpc _ _ _ inputs _ _ _ _ hsel e he with h | h
              · simp at h
              · exact h
            · cases hms : markStates InputState.Transmitted inputs ctx.inputs with
              | mk res m2 => cases res <;> simp [hms]
            · cases hms : markStates InputState.Transmitted inputs ctx.inputs with
              | mk res m2 =>
                rcases markStates_first InputState.Transmitted ctx.inputs inputs with h | h
                <;> rw [hms] at h <;> dsimp only at h <;> subst h
                · left; simp [hms]
                · right
                  exact ⟨{ ctx with outputs := ctx.outputs ++ [(dest, amount)] },
                    by simp [hms]⟩

end Cryptonote

namespace Cryptonote

/-! ## Concrete fixtures for witnesses and counterexamples -/

/-- An empty transaction fixture. -/
def txFix : Transaction := ⟨[], 0, [], [], [], [], []⟩

/-- A block-header fixture. -/
def headerFix : BlockHeader := ⟨[], 0, 0, [], 0, false, 0, 0, [], 0⟩

/-- A block fixture with no transactions. -/
def blockFix : Block := ⟨headerFix, []⟩

/-- An RPC oracle fixture whose node reports every key image spent and publishes
everything; its single global output index is 5. -/
def rpcFix : RPCI :=
  { get_block_count := 0
    get_block_hash := fun _ => []
    get_block := fun _ => blockFix
    get_transaction := fun _ => txFix
    get_o_indexes := fun _ => [5]
    get_outs := fun _ => ([], [])
    get_fee_estimate := (0, 0)
    is_key_image_spent := fun _ => true
    publish_ok := fun _ => true }

/-- A trivial crypto capability fixture (no mixins required, zero minimum fee). -/
def cryptoFix : CryptoI :=
  { confirmations := 10
    lock_blocks := 0
    miner_lock_blocks := 0
    oldest_txo := 0
    required_mixins := 0
    network_bytes := []
    network_byte_length := 1
    payment_id_leading := false
    payment_id_lengths := [8]
    address_regex_len := 95
    integrated_address_regex_len := 106
    output_from_json := monero_output_from_json
    create_shared_key := fun _ _ => .ok []
    get_payment_IDs := fun _ _ => []
    can_spend_output := fun _ _ _ _ => .ok none
    get_minimum_fee := fun _ _ _ _ _ _ => 0 }

/-- A concrete output index. -/
def idxFix : OutputIndex := ⟨[0], 0⟩

/-- A concrete `Spendable` output worth 5. -/
def infoFix : OutputInfo := ⟨idxFix, 0, 5, [], .Spendable, [], [], [], (0, 0), [], []⟩

/-- A wallet holding exactly `infoFix`. -/
def walletFix : WatchWallet := ⟨[], [], [], [], [(idxFix, infoFix)], [], 0⟩

/-! ## C1: input-state machine -/

/-- Wallet-level `prepare_send` touches exactly the inputs dict the core acts on. -/
lemma prepare_send_inputs (c : CryptoI) (rpc : RPCI) (rand : List Nat) (w : WatchWallet)
    (dest : List Char) (amount fee minimum_input : Int) :
    (prepare_send c rpc rand w dest amount fee minimum_input).2.inputs =
      (prepare_send_core c rpc rand w.inputs dest amount fee minimum_input).2 := by
  cases hpc : prepare_send_core c rpc rand w.inputs dest amount fee minimum_input with
  | mk res m2 => simp [prepare_send, hpc]

/-- Wallet-level and core `prepare_send` agree on the returned result. -/
lemma prepare_send_fst (c : CryptoI) (rpc : RPCI) (rand : List Nat) (w : WatchWallet)
    (dest : List Char) (amount fee minimum_input : Int) :
    (prepare_send c rpc rand w dest amount fee minimum_input).1 =
      (prepare_send_core c rpc rand w.inputs dest amount fee minimum_input).1 := by
  cases hpc : prepare_send_core c rpc rand w.inputs dest amount fee minimum_input with
  | mk res m2 => simp [prepare_send, hpc]

/-- C1 counterexample: `rebuild_input_states`, told by the node that a key image
is spent, moves the matching input directly from `Spendable` to `Spent` in a
single operation — the claimed invariant (never Spendable→Spent directly)
fails on the code. -/
theorem claim1_counterexample :
    infoFix.state = InputState.Spendable ∧
    dget walletFix.inputs idxFix = some infoFix ∧
    dget (rebuild_input_states rpcFix walletFix
        [⟨[0], 0, []⟩]).2.inputs idxFix =
      some { infoFix with state := InputState.Spent } :=
  ⟨rfl, rfl, rfl⟩

/-- C1 (amended): for every wallet whose inputs dict is well-formed (keys match
the stored `OutputInfo.index` and are distinct), `prepare_send` changes an
input's state only from `Spendable` to `Transmitted`; `finalize_send` sets
every input referenced by the context to `Spent` (successful publish) or
`Spendable` (failure) regardless of its previous state; and
`rebuild_input_states` changes states only to `Spent` (possibly directly from
`Spendable`).  Any input not so touched is unchanged. -/
theorem claim1_input_state_transitions (c : CryptoI) (rpc : RPCI) (rand : List Nat)
    (w : WatchWallet) (dest : List Char) (amount fee minimum_input : Int)
    (idx : OutputIndex)
    (hKeys : ∀ p ∈ w.inputs, p.1 = p.2.index)
    (hNodup : (w.inputs.map Prod.fst).Nodup) :
    (dget (prepare_send c rpc rand w dest amount fee minimum_input).2.inputs idx =
        dget w.inputs idx ∨
      ∃ info, dget w.inputs idx = some info ∧ info.state = InputState.Spendable ∧
        dget (prepare_send c rpc rand w dest amount fee minimum_input).2.inputs idx =
          some { info with state := InputState.Transmitted }) ∧
    (∀ (success : Bool) (ctx : SendContext) (ser : Bytes),
      dget (finalize_send rpc w success ctx ser).2.inputs idx = dget w.inputs idx ∨
      ∃ info, dget w.inputs idx = some info ∧
        dget (finalize_send rpc w success ctx ser).2.inputs idx =
          some { info with state :=
            if success && rpc.publish_ok ser then InputState.Spent
            else InputState.Spendable }) ∧
    (∀ images : List KeyImageJson,
      dget (rebuild_input_states rpc w images).2.inputs idx = dget w.inputs idx ∨
      ∃ info, dget w.inputs idx = some info ∧
        dget (rebuild_input_states rpc w images).2.inputs idx =
          some { info with state := InputState.Spent }) := by
  refine ⟨?_, ?_, ?_⟩
  · rw [prepare_send_inputs]
    rcases prepare_send_core_cases c rpc rand w.inputs dest amount fee minimum_input with
      h | ⟨ctx, hmem, h2, _⟩
    · left; rw [h]
    · rcases markStates_spec InputState.Transmitted ctx.inputs w.inputs idx with
        hkeep | ⟨⟨e, he, hek⟩, info, h1, hset⟩
      · left; rw [h2, hkeep]
      · right
        obtain ⟨p, hp, hstate, hjson⟩ := hmem e he
        have hkey : (⟨e.json.hash, e.json.index⟩ : OutputIndex) = p.2.index := by
          rw [hjson]; rfl
        have hpk : p.1 = p.2.index := hKeys p hp
        have hdg : dget w.inputs p.1 = some p.2 :=
          dget_of_mem_nodup w.inputs p.1 p.2 hp hNodup
        have hidx : idx = p.1 := by rw [hpk, ← hkey, hek]
        have hdgi : dget w.inputs idx = some p.2 := by rw [hidx]; exact hdg
        have hinfo : info = p.2 := Option.some.inj (h1.symm.trans hdgi)
        refine ⟨info, h1, ?_, ?_⟩
        · rw [hinfo]; exact hstate
        · rw [h2]; exact hset
  · intro success ctx ser
    have hfin : (finalize_send rpc w success ctx ser).2.inputs =
        (markStates
          (if success && rpc.publish_ok ser then InputState.Spent else InputState.Spendable)
          w.inputs ctx.inputs).2 := by
      unfold finalize_send
      dsimp only
      cases hms : markStates
          (if success && rpc.publish_ok ser then InputState.Spent else InputState.Spendable)
          w.inputs ctx.inputs with
      | mk res m2 =>
        cases res <;> rfl
    rcases markStates_spec
        (if success && rpc.publish_ok ser then InputState.Spent else InputState.Spendable)
        ctx.inputs w.inputs idx with h | ⟨_, info, h1, hset⟩
    · left; rw [hfin, h]
    · right
      exact ⟨info, h1, by rw [hfin]; exact hset⟩
  · intro images
    exact rebuild_spec rpc images w idx

/-- C1 witness: the amended state-transition theorem applied to a concrete
wallet holding one spendable input. -/
theorem claim1_witness :
    ((∀ p ∈ walletFix.inputs, p.1 = p.2.index) ∧
      (walletFix.inputs.map Prod.fst).Nodup) ∧
    ((dget (prepare_send cryptoFix rpcFix [] walletFix [] 0 0 0).2.inputs idxFix =
        dget walletFix.inputs idxFix ∨
      ∃ info, dget walletFix.inputs idxFix = some info ∧
        info.state = InputState.Spendable ∧
        dget (prepare_send cryptoFix rpcFix [] walletFix [] 0 0 0).2.inputs idxFix =
          some { info with state := InputState.Transmitted }) ∧
    (∀ (success : Bool) (ctx : SendContext) (ser : Bytes),
      dget (finalize_send rpcFix walletFix success ctx ser).2.inputs idxFix =
        dget walletFix.inputs idxFix ∨
      ∃ info, dget walletFix.inputs idxFix = some info ∧
        dget (finalize_send rpcFix walletFix success ctx ser).2.inputs idxFix =
          some { info with state :=
            if success && rpcFix.publish_ok ser then InputState.Spent
            else InputState.Spendable }) ∧
    (∀ images : List KeyImageJson,
      dget (rebuild_input_states rpcFix walletFix images).2.inputs idxFix =
        dget walletFix.inputs idxFix ∨
      ∃ info, dget walletFix.inputs idxFix = some info ∧
        dget (rebuild_input_states rpcFix walletFix images).2.inputs idxFix =
          some { info with state := InputState.Spent })) :=
  ⟨⟨by decide, by decide⟩,
    claim1_input_state_transitions cryptoFix rpcFix [] walletFix [] 0 0 0 idxFix
      (by decide) (by decide)⟩

/-! ## C3: atomic failure of prepare_send -/

/-- C3: `prepare_send` raising `MixinError`, `BalanceError` or the fee-too-low
exception leaves every input state in the wallet's input map unchanged — all
validation happens before any state mutation. -/
theorem claim3_atomic_failure (c : CryptoI) (rpc : RPCI) (rand : List Nat)
    (w : WatchWallet) (dest : List Char) (amount fee minimum_input : Int) (e : PyErr)
    (herr : (prepare_send c rpc rand w dest amount fee minimum_input).1 = .error e)
    (hkind : e = .mixinError ∨ e = .balanceError ∨ e = .genericFeeExc) :
    (prepare_send c rpc rand w dest amount fee minimum_input).2.inputs = w.inputs := by
  rw [prepare_send_inputs]
  rw [prepare_send_fst] at herr
  rcases prepare_send_core_cases c rpc rand w.inputs dest amount fee minimum_input with
    h | ⟨ctx, _, _, hres⟩
  · exact h
  · exfalso
    rcases hres with hk | ⟨ctx2, hok⟩
    · have he : e = PyErr.keyError := by
        have := herr.symm.trans hk
        exact (Except.error.inj this)
      rcases hkind with h | h | h <;> rw [he] at h <;> cases h
    · rw [hok] at herr
      cases herr

/-- C3 witness: a concrete `prepare_send` that fails with `BalanceError`
(requested amount 10 against an empty usable balance) and leaves the inputs
dict untouched. -/
theorem claim3_witness :
    ((prepare_send cryptoFix rpcFix [] walletFix [] 10 0 0).1 =
      .error PyErr.balanceError) ∧
    (prepare_send cryptoFix rpcFix [] walletFix [] 10 0 0).2.inputs =
      walletFix.inputs :=
  ⟨rfl,
    claim3_atomic_failure cryptoFix rpcFix [] walletFix [] 10 0 0 PyErr.balanceError
      rfl (Or.inr (Or.inl rfl))⟩

end Cryptonote

namespace Cryptonote

/-! ## C6: first discovery wins -/

lemma mergeTxos_pres :
    ∀ (l m : List (OutputIndex × OutputInfo)) (idx : OutputIndex) (v : OutputInfo),
      dget m idx = some v → dget (mergeTxos m l) idx = some v := by
  intro l
  induction l with
  | nil => intro m idx v h; exact h
  | cons p t ih =>
    intro m idx v h
    obtain ⟨k, val⟩ := p
    by_cases hm : dmem m k
    · simp only [mergeTxos]
      rw [if_pos hm]
      exact ih m idx v h
    · simp only [mergeTxos]
      rw [if_neg hm]
      apply ih
      rw [dget_dset]
      have hne : idx ≠ k := by
        intro he
        subst he
        simp [dmem, h] at hm
      rw [if_neg hne]
      exact h

lemma can_spend_pres (c : CryptoI) (w : WatchWallet) (tx : Transaction)
    (idx : OutputIndex) (v : OutputInfo) (h : dget w.inputs idx = some v) :
    dget (can_spend c w tx).2.inputs idx = some v := by
  unfold can_spend
  split
  · exact h
  · exact mergeTxos_pres _ _ idx v h

lemma scanTxs_pres :
    ∀ (ts : List Bytes) (c : CryptoI) (rpc : RPCI) (w : WatchWallet)
      (result : List (OutputIndex × OutputInfo)) (idx : OutputIndex) (v : OutputInfo),
      dget w.inputs idx = some v →
      dget (scanTxs c rpc w result ts).2.inputs idx = some v := by
  intro ts
  induction ts with
  | nil => intro c rpc w result idx v h; exact h
  | cons hd t ih =>
    intro c rpc w result idx v h
    simp only [scanTxs]
    cases hcs : can_spend c w (rpc.get_transaction hd) with
    | mk res w' =>
      have hw' : dget w'.inputs idx = some v := by
        have hp := can_spend_pres c w (rpc.get_transaction hd) idx v h
        rw [hcs] at hp
        exact hp
      cases res with
      | error e => exact hw'
      | ok p => exact ih c rpc w' _ idx v hw'

lemma pollLoop_pres :
    ∀ (queue : List Block) (c : CryptoI) (rpc : RPCI)
      (result : List (OutputIndex × OutputInfo)) (w : WatchWallet)
      (idx : OutputIndex) (v : OutputInfo),
      dget w.inputs idx = some v →
      dget (pollLoop c rpc queue result w).2.inputs idx = some v := by
  intro queue
  induction queue with
  | nil => intro c rpc result w idx v h; exact h
  | cons b rest ih =>
    intro c rpc result w idx v h
    simp only [pollLoop]
    by_cases hlen : rest.length + 1 > c.confirmations
    · rw [if_pos hlen]
      cases hsc : scanTxs c rpc { w with confirmation_queue := rest } result
          (b.hashes ++ [b.header.miner_tx_hash]) with
      | mk res w' =>
        have hw' : dget w'.inputs idx = some v := by
          have hp := scanTxs_pres (b.hashes ++ [b.header.miner_tx_hash]) c rpc
            { w with confirmation_queue := rest } result idx v h
          rw [hsc] at hp
          exact hp
        cases res with
        | error e => exact hw'
        | ok r => exact ih c rpc r w' idx v hw'
    · rw [if_neg hlen]
      exact h

/-- C6: first discovery wins — an `OutputIndex` already present in the wallet's
input map keeps exactly its existing `OutputInfo` (state included) across
`can_spend` and across `poll_blocks`; scanning only ever adds entries under
fresh keys. -/
theorem claim6_first_discovery_wins (c : CryptoI) (rpc : RPCI) (w : WatchWallet)
    (tx : Transaction) (idx : OutputIndex) (v : OutputInfo)
    (h : dget w.inputs idx = some v) :
    dget (can_spend c w tx).2.inputs idx = some v ∧
    dget (poll_blocks c rpc w).2.inputs idx = some v := by
  refine ⟨can_spend_pres c w tx idx v h, ?_⟩
  unfold poll_blocks
  exact pollLoop_pres _ c rpc [] _ idx v h

/-- C6 witness: the preservation theorem applied to a concrete wallet already
holding an output at `idxFix`. -/
theorem claim6_witness :
    dget walletFix.inputs idxFix = some infoFix ∧
    (dget (can_spend cryptoFix walletFix txFix).2.inputs idxFix = some infoFix ∧
      dget (poll_blocks cryptoFix rpcFix walletFix).2.inputs idxFix = some infoFix) :=
  ⟨rfl, claim6_first_discovery_wins cryptoFix rpcFix walletFix txFix idxFix infoFix rfl⟩

/-! ## C10: load_state rewinds ten blocks -/

/-- C10: restoring a saved state sets the wallet's last-synced height to the
stored `last_block` minus 10 before re-polling, so the subsequent
`poll_blocks` fetches (rescans) every available block height within 10 of the
saved height. -/
theorem claim10_load_state_rewind (c : CryptoI) (rpc : RPCI) (w : WatchWallet)
    (s : SavedState) (h : s.last_block - 10 ≠ -1) :
    ∃ w' : WatchWallet, w'.last_block = s.last_block - 10 ∧
      load_state c rpc w (.inr s) =
        ((poll_blocks c rpc w').1.map (fun _ => ()), (poll_blocks c rpc w').2) ∧
      (∀ k : Nat, k < 10 → s.last_block - k ≤ (rpc.get_block_count : Int) - 1 →
        (s.last_block - k) ∈ pollRange w'.last_block rpc.get_block_count) := by
  refine ⟨{ w with
      last_block := s.last_block - 10
      inputs := s.inputs.foldl
        (fun m j =>
          let o := c.output_from_json j
          dset m o.index o) w.inputs
      unique_factors := s.unique_factors.foldl
        (fun u kv => dset u kv.1 kv.2) w.unique_factors }, rfl, ?_, ?_⟩
  · unfold load_state
    dsimp only
    rw [if_pos h]
    cases hp : poll_blocks c rpc { w with
        last_block := s.last_block - 10
        inputs := s.inputs.foldl
          (fun m j =>
            let o := c.output_from_json j
            dset m o.index o) w.inputs
        unique_factors := s.unique_factors.foldl
          (fun u kv => dset u kv.1 kv.2) w.unique_factors } with
    | mk res w2 => cases res <;> rfl
  · intro k hk hle
    unfold pollRange
    dsimp only
    simp only [List.mem_map, List.mem_range]
    refine ⟨9 - k, ?_, ?_⟩
    · omega
    · omega

/-- C10 witness: the rewind theorem applied to a saved state at height 20. -/
theorem claim10_witness :
    ((20 : Int) - 10 ≠ -1) ∧
    (∃ w' : WatchWallet, w'.last_block = (20 : Int) - 10 ∧
      load_state cryptoFix rpcFix walletFix (.inr ⟨20, [], []⟩) =
        ((poll_blocks cryptoFix rpcFix w').1.map (fun _ => ()),
          (poll_blocks cryptoFix rpcFix w').2) ∧
      (∀ k : Nat, k < 10 → (20 : Int) - k ≤ (rpcFix.get_block_count : Int) - 1 →
        ((20 : Int) - k) ∈ pollRange w'.last_block rpcFix.get_block_count)) :=
  ⟨by decide, claim10_load_state_rewind cryptoFix rpcFix walletFix ⟨20, [], []⟩ (by decide)⟩

end Cryptonote

namespace Cryptonote

/-! ## C7: Transaction extra-field scan -/

/-- Python slice `l[a:b]` for non-negative bounds (never raises; clamps). -/
def pySliceNat (l : Bytes) (a b : Nat) : Bytes := (l.take b).drop a

/-- Python `int.from_bytes(l, "little")`. -/
def intFromLE (l : Bytes) : Nat := l.foldr (fun b acc => b + 256 * acc) 0

/-- The nonce sub-record loop of the extra scan (tag 0x02): while at least 9
bytes remain before `endPos`, consume a plaintext payment id (sub-tag 0x00,
32 bytes) or an encrypted one (sub-tag 0x01, 8 bytes); anything else breaks.
Returns the collected ids and the cursor (`none` models the `IndexError`
aborting the whole scan; each iteration advances the cursor by at least 9 while
reading a byte inside `extra`, so fuel `extra.length + 1` never runs out first). -/
def parseNonceGo (extra : Bytes) (endPos : Nat) :
    Nat → Nat → List Bytes → List Bytes × Option Nat
  | 0, _, acc => (acc, none)
  | fuel + 1, cursor, acc =>
    if cursor + 9 ≤ endPos then
      match extra.get? cursor with
      | none => (acc, none)
      | some b =>
        if b = 0x00 then
          parseNonceGo extra endPos fuel (cursor + 33)
            (acc ++ [pySliceNat extra (cursor + 1) (cursor + 33)])
        else if b = 0x01 then
          parseNonceGo extra endPos fuel (cursor + 9)
            (acc ++ [pySliceNat extra (cursor + 1) (cursor + 9)])
        else (acc, some endPos)
    else (acc, some endPos)

/-- The additional-public-keys loop of the extra scan (tag 0x04): up to `n`
32-byte keys; a short slice fails `check_R` and breaks, leaving the cursor. -/
def parseKeysGo (extra : Bytes) : Nat → Nat → List Bytes → List Bytes × Nat
  | 0, cursor, acc => (acc, cursor)
  | n + 1, cursor, acc =>
    let potential_R := pySliceNat extra cursor (cursor + 32)
    if potential_R.length ≠ 32 then (acc, cursor)
    else parseKeysGo extra n (cursor + 32) (acc ++ [potential_R])

/-- The `skip_tag` helper: read a varint, then a varint length, and jump past it. -/
def skipTag (extra : Bytes) (cursor : Nat) : Option Nat :=
  match from_var_int extra cursor with
  | none => none
  | some (_, c1) =>
    match from_var_int extra c1 with
    | none => none
    | some (v2, c2) => some (c2 + v2)

/-- Main loop of the `Transaction.__init__` extra scan.  Every continuing branch
advances the cursor by at least 1, so fuel `extra.length + 1` (installed by
`parseExtra`) never runs out before `cursor < extra.length` fails; a varint
running off the end is the caught `IndexError`, which stops the scan keeping
everything collected so far.  Unknown tags and failed `check_R` break. -/
def parseExtraGo (extra : Bytes) :
    Nat → Nat → List Bytes → List Bytes → List Bytes × List Bytes
  | 0, _, Rs, pids => (Rs, pids)
  | fuel + 1, cursor, Rs, pids =>
    if cursor < extra.length then
      match from_var_int extra cursor with
      | none => (Rs, pids)
      | some (tag, c1) =>
        if tag = 0x00 then
          parseExtraGo extra fuel (c1 + 8 + intFromLE (pySliceNat extra c1 (c1 + 8))) Rs pids
        else if tag = 0x01 then
          if (pySliceNat extra c1 (c1 + 32)).length ≠ 32 then (Rs, pids)
          else parseExtraGo extra fuel (c1 + 32) (Rs ++ [pySliceNat extra c1 (c1 + 32)]) pids
        else if tag = 0x02 then
          match from_var_int extra c1 with
          | none => (Rs, pids)
          | some (len2, c2) =>
            match parseNonceGo extra (c2 + len2) (extra.length + 1) c2 [] with
            | (newPids, none) => (Rs, pids ++ newPids)
            | (newPids, some c3) => parseExtraGo extra fuel c3 Rs (pids ++ newPids)
        else if tag = 0x04 then
          match from_var_int extra c1 with
          | none => (Rs, pids)
          | some (keys, c2) =>
            match parseKeysGo extra keys c2 [] with
            | (newRs, c3) => parseExtraGo extra fuel c3 (Rs ++ newRs) pids
        else if tag = 0x03 ∨ tag = 0xDE then
          match skipTag extra c1 with
          | none => (Rs, pids)
          | some c2 => parseExtraGo extra fuel c2 Rs pids
        else (Rs, pids)
    else (Rs, pids)

/-- The whole extra scan of `Transaction.__init__`, before deduplication. -/
def parseExtra (extra : Bytes) : List Bytes × List Bytes :=
  parseExtraGo extra (extra.length + 1) 0 [] []

/-- The `Rs` list the constructor exposes (`list(set(Rs))`; the model uses
`List.dedup`, which has the same members and no duplicates). -/
def transaction_Rs (extra : Bytes) : List Bytes := (parseExtra extra).1.dedup

/-- The `payment_IDs` list the constructor exposes (`list(set(...))`). -/
def transaction_payment_IDs (extra : Bytes) : List Bytes := (parseExtra extra).2.dedup

lemma parseKeysGo_len (extra : Bytes) :
    ∀ (n cursor : Nat) (acc : List Bytes),
      (∀ R ∈ acc, R.length = 32) →
      ∀ R ∈ (parseKeysGo extra n cursor acc).1, R.length = 32 := by
  intro n
  induction n with
  | zero => intro cursor acc hacc R hR; exact hacc R hR
  | succ n ih =>
    intro cursor acc hacc R hR
    by_cases hlen : (pySliceNat extra cursor (cursor + 32)).length ≠ 32
    · rw [parseKeysGo, if_pos hlen] at hR
      exact hacc R hR
    · rw [parseKeysGo, if_neg hlen] at hR
      refine ih (cursor + 32) _ ?_ R hR
      intro R2 hR2
      rcases List.mem_append.mp hR2 with h | h
      · exact hacc R2 h
      · simp only [List.mem_singleton] at h
        subst h
        exact not_not.mp hlen

lemma parseExtraGo_len (extra : Bytes) :
    ∀ (fuel cursor : Nat) (Rs pids : List Bytes),
      (∀ R ∈ Rs, R.length = 32) →
      ∀ R ∈ (parseExtraGo extra fuel cursor Rs pids).1, R.length = 32 := by
  intro fuel
  induction fuel with
  | zero => intro cursor Rs pids hRs R hR; exact hRs R hR
  | succ fuel ih =>
    intro cursor Rs pids hRs R hR
    rw [parseExtraGo] at hR
    by_cases hc : cursor < extra.length
    · rw [if_pos hc] at hR
      cases hv : from_var_int extra cursor with
      | none => rw [hv] at hR; exact hRs R hR
      | some pr =>
        obtain ⟨tag, c1⟩ := pr
        rw [hv] at hR
        dsimp only at hR
        by_cases h0 : tag = 0x00
        · rw [if_pos h0] at hR
          exact ih _ Rs pids hRs R hR
        · rw [if_neg h0] at hR
          by_cases h1 : tag = 0x01
          · rw [if_pos h1] at hR
            by_cases hlen : (pySliceNat extra c1 (c1 + 32)).length ≠ 32
            · rw [if_pos hlen] at hR
              exact hRs R hR
            · rw [if_neg hlen] at hR
              refine ih _ _ pids ?_ R hR
              intro R2 hR2
              rcases List.mem_append.mp hR2 with h | h
              · exact hRs R2 h
              · simp only [List.mem_singleton] at h
                subst h
                exact not_not.mp hlen
          · rw [if_neg h1] at hR
            by_cases h2 : tag = 0x02
            · rw [if_pos h2] at hR
              cases hv2 : from_var_int extra c1 with
              | none => rw [hv2] at hR; exact hRs R hR
              | some pr2 =>
                obtain ⟨len2, c2⟩ := pr2
                rw [hv2] at hR
                dsimp only at hR
                cases hn : parseNonceGo extra (c2 + len2) (extra.length + 1) c2 [] with
                | mk newPids oc =>
                  rw [hn] at hR
                  cases oc with
                  | none => exact hRs R hR
                  | some c3 => exact ih _ Rs _ hRs R hR
            · rw [if_neg h2] at hR
              by_cases h4 : tag = 0x04
              · rw [if_pos h4] at hR
                cases hv2 : from_var_int extra c1 with
                | none => rw [hv2] at hR; exact hRs R hR
                | some pr2 =>
                  obtain ⟨keys, c2⟩ := pr2
                  rw [hv2] at hR
                  dsimp only at hR
                  cases hk : parseKeysGo extra keys c2 [] with
                  | mk newRs c3 =>
                    rw [hk] at hR
                    refine ih _ _ pids ?_ R hR
                    intro R2 hR2
                    rcases List.mem_append.mp hR2 with h | h
                    · exact hRs R2 h
                    · have := parseKeysGo_len extra keys c2 [] (by intro x hx; cases hx) R2
                      rw [hk] at this
                      exact this h
              · rw [if_neg h4] at hR
                by_cases h3 : tag = 0x03 ∨ tag = 0xDE
                · rw [if_pos h3] at hR
                  cases hs : skipTag extra c1 with
                  | none => rw [hs] at hR; exact hRs R hR
                  | some c2 =>
                    rw [hs] at hR
                    exact ih _ Rs pids hRs R hR
                · rw [if_neg h3] at hR
                  exact hRs R hR
    · rw [if_neg hc] at hR
      exact hRs R hR

/-- C7: the extra-field scan is total (the model is a plain function — the
`IndexError`-abort paths return the prefix collected so far rather than
failing), and on every input the exposed `Rs` and `payment_IDs` lists are
duplicate-free, with every collected one-time key exactly 32 bytes. -/
theorem claim7_extra_scan_safe (extra : Bytes) :
    (transaction_Rs extra).Nodup ∧ (transaction_payment_IDs extra).Nodup ∧
    ∀ R ∈ transaction_Rs extra, R.length = 32 := by
  refine ⟨List.nodup_dedup _, List.nodup_dedup _, ?_⟩
  intro R hR
  have hmem : R ∈ (parseExtra extra).1 := List.mem_dedup.mp hR
  exact parseExtraGo_len extra (extra.length + 1) 0 [] []
    (by intro x hx; cases hx) R hmem

/-- C7 witness: the scan-safety theorem applied to a concrete extra blob holding
one one-time key and one encrypted payment id. -/
theorem claim7_witness :
    (transaction_Rs
        (([0x01] ++ List.replicate 32 7) ++ ([0x02, 0x09, 0x01] ++ List.replicate 8 3))).Nodup ∧
    (transaction_payment_IDs
        (([0x01] ++ List.replicate 32 7) ++ ([0x02, 0x09, 0x01] ++ List.replicate 8 3))).Nodup ∧
    ∀ R ∈ transaction_Rs
        (([0x01] ++ List.replicate 32 7) ++ ([0x02, 0x09, 0x01] ++ List.replicate 8 3)),
      R.length = 32 :=
  claim7_extra_scan_safe (([0x01] ++ List.replicate 32 7) ++ ([0x02, 0x09, 0x01] ++ List.replicate 8 3))

end Cryptonote

namespace Cryptonote

/-! ## C9: MoneroSpendableTransaction.serialize -/

/-- The per-output ECDH data of a `RingCTSignatures` bundle (8 encrypted-amount
bytes consumed as `amount[0..7]`). -/
structure EcdhInfo where
  amount : Bytes
deriving DecidableEq

/-- A per-output public-key entry of the bundle (32 mask bytes). -/
structure OutPk where
  mask : Bytes
deriving DecidableEq

/-- One bulletproof of the prunable section. -/
structure Bulletproof where
  capital_a : Bytes
  s : Bytes
  t1 : Bytes
  t2 : Bytes
  taux : Bytes
  mu : Bytes
  l : List Bytes
  r : List Bytes
  a : Bytes
  b : Bytes
  t : Bytes
deriving DecidableEq

/-- One CLSAG ring signature of the prunable section. -/
structure CLSAG where
  s : List Bytes
  c1 : Bytes
  D : Bytes
deriving DecidableEq

/-- The prunable section of the bundle. -/
structure RctPrunable where
  bulletproofs : List Bulletproof
  CLSAGs : List CLSAG
  pseudo_outs : List Bytes
deriving DecidableEq

/-- The opaque signature bundle returned by the external signing oracle
(`RingCTSignatures` of the C extension), with exactly the fields `serialize`
reads. -/
structure RingCTSignatures where
  ecdh_info : List EcdhInfo
  out_public_keys : List OutPk
  prunable : RctPrunable
deriving DecidableEq

/-- Source `MoneroSpendableTransaction` (draft transaction). -/
structure MoneroSpendableTransaction where
  inputs : List OutputInfo
  amount_keys : List Bytes
  output_keys : List Bytes
  output_amounts : List Int
  extra : Bytes
  fee : Int
  signatures : Option RingCTSignatures
deriving DecidableEq

/-- The `for i in range(32): out += bytes([v[i]])` loops of `serialize`
(an out-of-range read would be Python's IndexError; oracle-produced bundles
always carry exactly 32 bytes, so the model totalises with 0). -/
def byte32 (l : Bytes) : Bytes := (List.range 32).map (fun i => l.getD i 0)

/-- The `for i in range(8)` loop over encrypted-amount bytes. -/
def byte8 (l : Bytes) : Bytes := (List.range 8).map (fun i => l.getD i 0)

/-- The prefix section built by `serialize`: version/locktime bytes `[2, 0]`,
inputs (tag `[2, 0]`, delta mixins, key image), outputs (tag `[0, 2]`, key),
and the extra blob, each with varint counts. -/
def prefixSection (tx : MoneroSpendableTransaction) : Bytes :=
  [2, 0]
  ++ to_var_int tx.inputs.length
  ++ tx.inputs.foldl (fun acc input_i =>
      acc ++ [2, 0] ++ to_var_int input_i.mixins.length
        ++ input_i.mixins.foldl (fun a m => a ++ to_var_int m.toNat) []
        ++ input_i.image) []
  ++ to_var_int tx.output_keys.length
  ++ tx.output_keys.foldl (fun acc k => acc ++ [0, 2] ++ k) []
  ++ to_var_int tx.extra.length
  ++ tx.extra

/-- The base section: RingCT type tag `[5]`, fee, the 8 encrypted-amount bytes
per output, and the 32 mask bytes per bundle output key. -/
def baseSection (tx : MoneroSpendableTransaction) (sigs : RingCTSignatures) : Bytes :=
  [5] ++ to_var_int tx.fee.toNat
  ++ (List.range tx.output_keys.length).foldl (fun acc o =>
      acc ++ byte8 (sigs.ecdh_info.getD o ⟨[]⟩).amount) []
  ++ sigs.out_public_keys.foldl (fun acc opk => acc ++ byte32 opk.mask) []

/-- The prunable section: bulletproofs, CLSAG components, pseudo outs. -/
def prunableSection (sigs : RingCTSignatures) : Bytes :=
  to_var_int sigs.prunable.bulletproofs.length
  ++ sigs.prunable.bulletproofs.foldl (fun acc bp =>
      acc ++ byte32 bp.capital_a ++ byte32 bp.s ++ byte32 bp.t1 ++ byte32 bp.t2
        ++ byte32 bp.taux ++ byte32 bp.mu
        ++ to_var_int bp.l.length
        ++ bp.l.foldl (fun a li => a ++ byte32 li) []
        ++ to_var_int bp.r.length
        ++ bp.r.foldl (fun a ri => a ++ byte32 ri) []
        ++ byte32 bp.a ++ byte32 bp.b ++ byte32 bp.t) []
  ++ sigs.prunable.CLSAGs.foldl (fun acc cl =>
      acc ++ cl.s.foldl (fun a si => a ++ byte32 si) []
        ++ byte32 cl.c1 ++ byte32 cl.D) []
  ++ sigs.prunable.pseudo_outs.foldl (fun acc po => acc ++ byte32 po) []

/-- Source `MoneroSpendableTransaction.serialize` (Keccak-256 passed as the
oracle `HFn`): build the prefix; if unsigned return `(H(prefix), b"")`; else
build base and prunable and return
`(H(H(prefix) ++ H(base) ++ H(prunable)), prefix ++ base ++ prunable)`. -/
def serializeTx (HFn : Bytes → Bytes) (tx : MoneroSpendableTransaction) : Bytes × Bytes :=
  match tx.signatures with
  | none => (HFn (prefixSection tx), [])
  | some sigs =>
    (HFn (HFn (prefixSection tx) ++ HFn (baseSection tx sigs) ++ HFn (prunableSection sigs)),
      prefixSection tx ++ baseSection tx sigs ++ prunableSection sigs)

/-- An empty unsigned draft. -/
def draftFix : MoneroSpendableTransaction := ⟨[], [], [], [], [], 0, none⟩

/-- C9 counterexample: on an unsigned draft, `serialize` returns the hash
`H(prefix)` but an EMPTY byte string as the serialized data — not the prefix
section the claim says it returns (`return (ed.H(prefix), bytes())`). -/
theorem claim9_counterexample :
    (serializeTx (fun l => l) draftFix).2 = ([] : Bytes) ∧
    prefixSection draftFix = [2, 0, 0, 0, 0] ∧
    (serializeTx (fun l => l) draftFix).2 ≠ prefixSection draftFix :=
  ⟨rfl, rfl, by decide⟩

/-- C9 (amended): `serialize` on an unsigned draft returns
`(H(prefix), empty)` — the hash is over the prefix section but the returned
byte string is empty; once a signature bundle is attached it returns the three
concatenated sections together with the hash
`H(H(prefix) ++ H(base) ++ H(prunable))` over the independently hashed
sections. -/
theorem claim9_serialize_sections (HFn : Bytes → Bytes) (tx : MoneroSpendableTransaction) :
    serializeTx HFn tx =
      match tx.signatures with
      | none => (HFn (prefixSection tx), ([] : Bytes))
      | some sigs =>
        (HFn (HFn (prefixSection tx) ++ HFn (baseSection tx sigs)
            ++ HFn (prunableSection sigs)),
          prefixSection tx ++ baseSection tx sigs ++ prunableSection sigs) := by
  unfold serializeTx
  rfl

end Cryptonote

namespace Cryptonote

/-! ## ed25519.py

Python's arbitrary-precision integers become `Int`; `%` is Python's
floor/Euclidean mod (non-negative for the positive moduli used here), matching
Lean's `Int` `%` (`Int.emod`).  The recursions of `expmod` and `scalarmult`
halve their exponent argument, so fuel `e.toNat + 1` strictly dominates the
recursion depth and the fuel-0 branch is unreachable. -/

/-- Curve field prime `q = 2^255 - 19`. -/
def edq : Int := 2 ^ 255 - 19

/-- Subgroup order `l`. -/
def edl : Int := 2 ^ 252 + 27742317777372353535851937790883648493

/-- Fuel-driven `expmod(b, e, m)` (binary modular exponentiation, returning 1
for `e = 0` exactly as the source). -/
def expmodGo : Nat → Int → Int → Int → Int
  | 0, _, _, _ => 1
  | fuel + 1, bb, e, m =>
    if e = 0 then 1
    else
      let t := (expmodGo fuel bb (e / 2) m) ^ 2 % m
      if e % 2 = 1 then (t * bb) % m else t

/-- Source `expmod`. -/
def expmod (bb e m : Int) : Int := expmodGo (e.toNat + 1) bb e m

/-- Source `inv(x) = expmod(x, q - 2, q)` (Fermat inversion). -/
def edinv (x : Int) : Int := expmod x (edq - 2) edq

/-- Source `d = -121665 * inv(121666)` (kept unreduced and negative, as in the
source). -/
def edd : Int := -121665 * edinv 121666

/-- Source `I = expmod(2, (q - 1) // 4, q)`. -/
def edI : Int := expmod 2 ((edq - 1) / 4) edq

/-- Source `xrecover(y)`. -/
def xrecover (y : Int) : Int :=
  let xx := (y * y - 1) * edinv (edd * y * y + 1)
  let x := expmod xx ((edq + 3) / 8) edq
  let x := if (x * x - xx) % edq ≠ 0 then (x * edI) % edq else x
  if x % 2 ≠ 0 then edq - x else x

/-- Affine point: `[x, y]`. -/
abbrev Aff := Int × Int

/-- Extended point: `(X, Y, Z, T)`. -/
abbrev Ext := Int × Int × Int × Int

/-- Source `By`, `Bx`, `B` (base point; `By` deliberately unreduced as in the
source, reduced when `B` is formed). -/
def edBy : Int := 4 * edinv 5

/-- The recovered x-coordinate of the base point. -/
def edBx : Int := xrecover edBy

/-- The affine base point `B`. -/
def edB : Aff := (edBx % edq, edBy % edq)

/-- Source `edwards(P, Q)`: affine complete twisted-Edwards addition. -/
def edwards (P Q : Aff) : Aff :=
  let x1 := P.1
  let y1 := P.2
  let x2 := Q.1
  let y2 := Q.2
  let x3 := (x1 * y2 + x2 * y1) * edinv (1 + edd * x1 * x2 * y1 * y2)
  let y3 := (y1 * y2 + x1 * x2) * edinv (1 - edd * x1 * x2 * y1 * y2)
  (x3 % edq, y3 % edq)

/-- Source `compress(P)`: extended to affine via `zinv`. -/
def edcompress (P : Ext) : Aff :=
  let zinv := edinv P.2.2.1
  (P.1 * zinv % edq, P.2.1 * zinv % edq)

/-- Source `decompress(P)`: affine to extended `(x, y, 1, x*y % q)`. -/
def eddecompress (P : Aff) : Ext := (P.1, P.2, 1, P.1 * P.2 % edq)

/-- Source `add(P, Q)`: extended-coordinates addition. -/
def edadd (P Q : Ext) : Ext :=
  let A := (P.2.1 - P.1) * (Q.2.1 - Q.1) % edq
  let B := (P.2.1 + P.1) * (Q.2.1 + Q.1) % edq
  let C := 2 * P.2.2.2 * Q.2.2.2 * edd % edq
  let D := 2 * P.2.2.1 * Q.2.2.1 % edq
  (( B - A) * (D - C), (D + C) * (B + A), (D - C) * (D + C), (B - A) * (B + A))

/-- Source `add_compressed(P, Q)`. -/
def add_compressed (P Q : Aff) : Aff := edcompress (edadd (eddecompress P) (eddecompress Q))

/-- Fuel-driven `scalarmult(P, e)` (binary double-and-add over the affine law). -/
def scalarmultGo : Nat → Aff → Int → Aff
  | 0, _, _ => (0, 1)
  | fuel + 1, P, e =>
    if e = 0 then (0, 1)
    else
      let Q := scalarmultGo fuel P (e / 2)
      let Q2 := edwards Q Q
      if e % 2 = 1 then edwards Q2 P else Q2

/-- Source `scalarmult`. -/
def scalarmult (P : Aff) (e : Int) : Aff := scalarmultGo (e.toNat + 1) P e

/-- Source `encodeint(y)`: 32 little-endian bytes (callers always pass
non-negative reduced values). -/
def encodeint (y : Int) : Bytes :=
  (List.range 32).map (fun i => (y.toNat >>> (8 * i)) % 256)

/-- Source `encodepoint(P)`: y with the parity of x in the top bit, 32 bytes. -/
def encodepoint (P : Aff) : Bytes :=
  let n := P.2.toNat % 2 ^ 255 + 2 ^ 255 * (P.1.toNat % 2)
  (List.range 32).map (fun i => (n >>> (8 * i)) % 256)

/-- Source `decodeint(s)`: little-endian value of the 32 bytes (bit-indexing a
short string raises in Python; the call sites always pass 32 bytes). -/
def decodeint (s : Bytes) : Int := (intFromLE s : Int)

/-- Source `isoncurve(P)` for the twisted Edwards curve `-x^2 + y^2 = 1 + d x^2 y^2`. -/
def isoncurve (P : Aff) : Bool :=
  (-P.1 * P.1 + P.2 * P.2 - 1 - edd * P.1 * P.1 * P.2 * P.2) % edq = 0

/-- Source `decodepoint(s)`: recover x from the 254 low bits of y and the
parity bit, failing (`Exception` → `decodeError`) if not on the curve. -/
def decodepoint (s : Bytes) : Except PyErr Aff :=
  let y := (intFromLE s : Int) % 2 ^ 255
  let x := xrecover y
  let x := if x % 2 ≠ (intFromLE s : Int) / 2 ^ 255 % 2 then edq - x else x
  if isoncurve (x, y) then .ok (x, y) else .error .decodeError

/-- Source `public_from_secret(k)`. -/
def public_from_secret (k : Bytes) : Bytes := encodepoint (scalarmult edB (decodeint k))

/-- Source `Hs(d) = encodeint(decodeint(H(d)) % l)` with Keccak as oracle `HFn`. -/
def edHs (HFn : Bytes → Bytes) (data : Bytes) : Bytes :=
  encodeint (decodeint (HFn data) % edl)

/-- Source `COMMITMENT_MASK = b"\\1" + b"\\0" * 31`. -/
def COMMITMENT_MASK : Bytes := 1 :: List.replicate 31 0

/-- Source `MoneroCrypto.create_shared_key(scalar, point)`: decode the point,
multiply by the scalar, double three times in extended coordinates, recompress
and encode — `8·(scalar·point)`. -/
def create_shared_key (scalar point : Bytes) : Except PyErr Bytes := do
  let P ← decodepoint point
  let Ra8 := scalarmult P (decodeint scalar)
  let e0 := eddecompress Ra8
  let e1 := edadd e0 e0
  let e2 := edadd e1 e1
  let e3 := edadd e2 e2
  return encodepoint (edcompress e3)

end Cryptonote

namespace Cryptonote

/-! ## C4: fee validation raises the wrong exception type -/

/-- Source `MoneroCrypto.get_minimum_fee`: size-estimate formula
(`varint(inputs) + 803*inputs + Σ varint(mixin) + varint(outputs) + 74*outputs
+ varint(extra) + extra + varint(fee) + 64*min(outputs,4) + 614`), then
`ceil(length*feePerByte / mask) * mask` (Python `//` is floor division,
`Int.fdiv`). -/
def monero_get_minimum_fee (minimum_fee : Int × Int) (inputs outputs : Nat)
    (mixins : List (List Int)) (extra : Nat) (fee : Int) : Int :=
  let len1 : Nat := (to_var_int inputs).length + 803 * inputs
  let len2 := len1 + mixins.foldl (fun acc i =>
      acc + i.foldl (fun a v => a + (to_var_int v.toNat).length) 0) 0
  let len3 := len2 + (to_var_int outputs).length + 74 * outputs
  let len4 := len3 + (to_var_int extra).length + extra
  let len5 := len4 + (to_var_int fee.toNat).length
  let len6 := len5 + 64 * min outputs 4
  let len7 := len6 + 614
  ((len7 : Int) * minimum_fee.1 + minimum_fee.2 - 1).fdiv minimum_fee.2 * minimum_fee.2

/-- The Monero mainnet parameters and fee formula as a `CryptoI` value; the
ownership-scan member `can_spend_output` (not reachable from `prepare_send`,
the only operation verified against this value) is stubbed. -/
def moneroParamsFix : CryptoI :=
  { confirmations := 10
    lock_blocks := 10
    miner_lock_blocks := 60
    oldest_txo := 11000000
    required_mixins := 11
    network_bytes := [[0x12], [0x13], [0x2A]]
    network_byte_length := 1
    payment_id_leading := false
    payment_id_lengths := [8]
    address_regex_len := 95
    integrated_address_regex_len := 106
    output_from_json := monero_output_from_json
    create_shared_key := create_shared_key
    get_payment_IDs := fun _ _ => []
    can_spend_output := fun _ _ _ _ => .ok none
    get_minimum_fee := monero_get_minimum_fee }

/-- A node fixture for the fee scenario: height 100, newest global output
index 11000012, fee estimate (1 per byte, quantization mask 1). -/
def rpcMoneroFix : RPCI :=
  { get_block_count := 100
    get_block_hash := fun _ => []
    get_block := fun _ => blockFix
    get_transaction := fun _ => txFix
    get_o_indexes := fun _ => [11000012]
    get_outs := fun _ => ([], [])
    get_fee_estimate := (1, 1)
    is_key_image_spent := fun _ => false
    publish_ok := fun _ => true }

/-- A spendable input worth 1000000 at `idxFix`. -/
def infoMoneroFix : OutputInfo := ⟨idxFix, 0, 1000000, [], .Spendable, [], [], [], (0, 0), [], []⟩

/-- A wallet holding `infoMoneroFix`. -/
def walletMoneroFix : WatchWallet := ⟨[], [], [], [], [(idxFix, infoMoneroFix)], [], 0⟩

lemma selectInputs_err (c : CryptoI) (rpc : RPCI) (ht avail minin : Int) :
    ∀ (l : List (OutputIndex × OutputInfo)) (value : Int) (rand : List Nat)
      (ctx : SendContext) (e : PyErr),
      selectInputs c rpc ht avail minin l value rand ctx = Except.error e →
      e = PyErr.indexError ∨ e = PyErr.modelNoEntropy := by
  intro l
  induction l with
  | nil =>
    intro value rand ctx e hsel
    simp [selectInputs] at hsel
  | cons p rest ih =>
    intro value rand ctx e hsel
    obtain ⟨k, info⟩ := p
    by_cases hskip : info.state ≠ InputState.Spendable ∨ info.timelock ≥ ht ∨
        info.amount < minin
    · rw [selectInputs, if_pos hskip] at hsel
      exact ih value rand ctx e hsel
    · rw [selectInputs, if_neg hskip] at hsel
      cases hget : (rpc.get_o_indexes info.index.tx_hash).get? info.index.index with
      | none =>
        rw [hget] at hsel
        dsimp only at hsel
        exact Or.inl (Except.error.inj hsel).symm
      | some actual =>
        rw [hget] at hsel
        dsimp only at hsel
        cases hsam : sampleMixins c.required_mixins c.oldest_txo avail [actual] rand with
        | none =>
          rw [hsam] at hsel
          dsimp only at hsel
          exact Or.inr (Except.error.inj hsel).symm
        | some pr =>
          obtain ⟨mixins_i, rand'⟩ := pr
          rw [hsam] at hsel
          dsimp only at hsel
          by_cases hval : value - info.amount ≤ 0
          · rw [if_pos hval] at hsel
            cases hsel
          · rw [if_neg hval] at hsel
            exact ih _ _ _ e hsel

lemma prepare_send_core_no_feeError (c : CryptoI) (rpc : RPCI) (rand : List Nat)
    (inputs : List (OutputIndex × OutputInfo)) (dest : List Char)
    (amount fee minimum_input : Int) :
    (prepare_send_core c rpc rand inputs dest amount fee minimum_input).1 ≠
      Except.error PyErr.feeError := by
  unfold prepare_send_core
  cases hnew : newest_txo_of c rpc with
  | none => intro h; cases h
  | some newest_txo =>
    dsimp only
    by_cases hmix : newest_txo - c.oldest_txo < (c.required_mixins : Int)
    · rw [if_pos hmix]; intro h; cases h
    · rw [if_neg hmix]
      cases hsel : selectInputs c rpc (rpc.get_block_count : Int) (newest_txo - c.oldest_txo)
          minimum_input inputs (amount + fee) rand ⟨[], [], [], [], fee⟩ with
      | error e =>
        dsimp only
        intro h
        have he := (Except.error.inj h)
        rcases selectInputs_err c rpc _ _ _ inputs _ _ _ e hsel with h2 | h2 <;>
          rw [he] at h2 <;> cases h2
      | ok r =>
        obtain ⟨value, ctx, rand2⟩ := r
        dsimp only
        by_cases hval : value > 0
        · rw [if_pos hval]; intro h; cases h
        · rw [if_neg hval]
          by_cases hfee : fee < c.get_minimum_fee rpc.get_fee_estimate ctx.inputs.length 2
              ctx.mixins 255 fee
          · rw [if_pos hfee]; intro h; cases h
          · rw [if_neg hfee]
            cases hms : markStates InputState.Transmitted inputs ctx.inputs with
            | mk res m2 =>
              rcases markStates_first InputState.Transmitted ctx.inputs inputs with h | h <;>
                rw [hms] at h <;> dsimp only at h <;> subst h
              · intro h2; cases h2
              · intro h2; cases h2

/-- C4 (code bug): when `prepare_send` reaches the fee validation with a fee
strictly below `get_minimum_fee`, it raises
`Exception(FeeError, "Fee is too low.")` — a plain `Exception` whose first
argument is the `FeeError` class — instead of raising the typed `FeeError` its
own docstring promises; no execution of `prepare_send` ever raises `FeeError`.
The concrete run covers one Monero-parameter input with an 11-member ring and
fee 0 against a positive minimum fee. -/
theorem claim4_fee_raise_is_untyped :
    ((prepare_send moneroParamsFix rpcMoneroFix [0, 1, 2, 3, 4, 5, 6, 7, 8, 9]
        walletMoneroFix [] 100 0 0).1 = .error PyErr.genericFeeExc) ∧
    ((0 : Int) < monero_get_minimum_fee (1, 1) 1 2
      [[11000000, 11000001, 11000002, 11000003, 11000004, 11000005, 11000006,
        11000007, 11000008, 11000009, 11000012]] 255 0) ∧
    (∀ (c : CryptoI) (rpc : RPCI) (rand : List Nat)
      (inputs : List (OutputIndex × OutputInfo)) (dest : List Char)
      (amount fee minimum_input : Int),
      (prepare_send_core c rpc rand inputs dest amount fee minimum_input).1 ≠
        Except.error PyErr.feeError) :=
  ⟨rfl, by decide, prepare_send_core_no_feeError⟩

end Cryptonote

namespace Cryptonote

/-! ## C2: spendable_transaction conservation -/

/-- Source `SpendableOutput`: destination address material plus amount. -/
structure SpendableOutput where
  network : Bytes
  view_key : Bytes
  spend_key : Bytes
  payment_id : Option Bytes
  amount : Int
deriving DecidableEq

/-- The delta encoding of absolute ring indices
(`append(index - index_sum); index_sum += last`). -/
def deltaEncodeGo : Int → List Int → List Int
  | _, [] => []
  | acc, x :: t => (x - acc) :: deltaEncodeGo x t

/-- Delta-encode a sorted ring. -/
def deltaEncode (l : List Int) : List Int := deltaEncodeGo 0 l

/-- The `for i in range(len(inputs))` loop embedding delta mixins and ring rows
into the inputs; a missing row is Python's `IndexError`. -/
def embedMixins :
    List OutputInfo → List (List Int) → List (List (Bytes × Bytes)) →
    Except PyErr (List OutputInfo)
  | [], _, _ => .ok []
  | info :: t, m :: ms, r :: rs =>
    match embedMixins t ms rs with
    | .error e => .error e
    | .ok rest => .ok ({ info with mixins := deltaEncode m, ring := r } :: rest)
  | _ :: _, _, _ => .error .indexError

/-- Python `n.to_bytes(len, "little")` (the 8-byte payment-id case; values
always fit at the modelled call sites). -/
def toBytesLE (len : Nat) (n : Nat) : Bytes :=
  (List.range len).map (fun i => (n >>> (8 * i)) % 256)

/-- The body of one iteration of the per-output loop of
`spendable_transaction`: shared secret `rA8`, amount key `Hs(rA8 ++ varint o)`,
one-time output key `amount_key·B + spendPoint`, and the per-output R
(spend-key base when the destination is a subaddress —
`network == network_bytes[2]` — else the fixed base).  Reading
`network_bytes[2]` on a two-tag variant is Python's `IndexError`.  Returns
`(rA8, amount_key, output_key, R)`. -/
def buildOneOutput (HFn : Bytes → Bytes) (networkBytes : List Bytes) (r : Bytes)
    (o : Nat) (out : SpendableOutput) :
    Except PyErr (Bytes × Bytes × Bytes × Bytes) :=
  match create_shared_key r out.view_key with
  | .error e => .error e
  | .ok rA8 =>
    let amount_key := edHs HFn (rA8 ++ to_var_int o)
    match decodepoint out.spend_key with
    | .error e => .error e
    | .ok spendP =>
      let output_key :=
        encodepoint (add_compressed (scalarmult edB (decodeint amount_key)) spendP)
      match networkBytes.get? 2 with
      | none => .error .indexError
      | some nb2 =>
        match (if out.network = nb2 then
                (decodepoint out.spend_key).map
                  (fun sp => encodepoint (scalarmult sp (decodeint r)))
              else .ok (encodepoint (scalarmult edB (decodeint r)))) with
        | .error e => .error e
        | .ok rG => .ok (rA8, amount_key, output_key, rG)

/-- The per-output loop of `spendable_transaction`, collecting
`(Rs, rA8s, amount_keys, output_keys, output_amounts)` in output order; the
per-output body is passed as `step` (instantiated with `buildOneOutput`). -/
def buildOutputs (step : Nat → SpendableOutput → Except PyErr (Bytes × Bytes × Bytes × Bytes)) :
    Nat → List SpendableOutput →
    Except PyErr (List Bytes × List Bytes × List Bytes × List Bytes × List Int)
  | _, [] => .ok ([], [], [], [], [])
  | o, out :: t =>
    match step o out with
    | .error e => .error e
    | .ok q =>
      match buildOutputs step (o + 1) t with
      | .error e => .error e
      | .ok rest5 =>
        .ok (q.2.2.2 :: rest5.1, q.1 :: rest5.2.1, q.2.1 :: rest5.2.2.1,
          q.2.2.1 :: rest5.2.2.2.1, out.amount :: rest5.2.2.2.2)

/-- The payment-id records of extra: per output with a truthy payment id,
sub-tag `0x01` plus the id XOR-encrypted against `H(rA8 ++ [0x8D])[0:8]`,
8 bytes little-endian. -/
def pidBytesGo (HFn : Bytes → Bytes) : List SpendableOutput → List Bytes → Bytes
  | [], _ => []
  | _ :: _, [] => []
  | out :: ts, rA8 :: rs =>
    (match out.payment_id with
     | some pid =>
       if pid ≠ [] then
         [0x01] ++ toBytesLE 8
           (Nat.xor (intFromLE pid) (intFromLE (pySliceNat (HFn (rA8 ++ [0x8D])) 0 8)))
       else []
     | none => []) ++ pidBytesGo HFn ts rs

/-- Source `MoneroCrypto.spendable_transaction` with its ambient effects made
explicit: Keccak is `HFn`, `random.shuffle` is `shuffleFn`, and `urandom(32)`
is `rand32`; `networkBytes` is `self.network_bytes_property`.  Amount/change
checks come first (plain `Exception`s, modelled `genericExc`), then the change
append, the shuffle, the mixin embedding, the per-output key derivations, the
R deduplication and the extra assembly. -/
def spendable_transaction (HFn : Bytes → Bytes) (networkBytes : List Bytes)
    (shuffleFn : List SpendableOutput → List SpendableOutput) (rand32 : Bytes)
    (inputs : List OutputInfo) (mixins : List (List Int))
    (outputs : List SpendableOutput) (ring : List (List (Bytes × Bytes)))
    (change : SpendableOutput) (fee : Int) :
    Except PyErr MoneroSpendableTransaction :=
  let amount := inputs.foldl (fun a i => a + i.amount) 0
      - outputs.foldl (fun a o => a + o.amount) 0 - fee
  if amount < 0 then .error .genericExc
  else
    match (if amount = 0 then
            (if outputs.length < 2 then none else some outputs)
          else some (outputs ++ [{ change with amount := amount }])) with
    | none => .error .genericExc
    | some outputs1 =>
      let outputs2 := shuffleFn outputs1
      match embedMixins inputs mixins ring with
      | .error e => .error e
      | .ok inputs1 =>
        let r := edHs HFn rand32
        match buildOutputs (buildOneOutput HFn networkBytes r) 0 outputs2 with
        | .error e => .error e
        | .ok res5 =>
          match res5.1.dedup with
          | [] => .error .indexError
          | R0 :: rest =>
            let extra1 := [0x01] ++ R0 ++
              (if rest.length > 0 then
                [0x04] ++ to_var_int rest.length ++ rest.foldl (fun a R => a ++ R) []
              else [])
            let pids := pidBytesGo HFn outputs2 res5.2.1
            let extra2 := extra1 ++
              (if pids ≠ [] then [0x02] ++ to_var_int pids.length ++ pids else [])
            .ok ⟨inputs1, res5.2.2.1, res5.2.2.2.1, res5.2.2.2.2, extra2, fee, none⟩

end Cryptonote

namespace Cryptonote

lemma foldl_add_map {α : Type} (f : α → Int) :
    ∀ (l : List α) (a : Int), l.foldl (fun acc x => acc + f x) a = a + (l.map f).sum := by
  intro l
  induction l with
  | nil => intro a; simp
  | cons x t ih =>
    intro a
    simp only [List.foldl_cons, List.map_cons, List.sum_cons]
    rw [ih (a + f x)]
    ring

lemma buildOutputs_amounts
    (step : Nat → SpendableOutput → Except PyErr (Bytes × Bytes × Bytes × Bytes)) :
    ∀ (outs : List SpendableOutput) (o : Nat) (Rs rA8s aks oks : List Bytes)
      (amts : List Int),
      buildOutputs step o outs = .ok (Rs, rA8s, aks, oks, amts) →
      amts = outs.map (fun x => x.amount) := by
  intro outs
  induction outs with
  | nil =>
    intro o Rs rA8s aks oks amts h
    simp only [buildOutputs] at h
    cases h
    rfl
  | cons out t ih =>
    intro o Rs rA8s aks oks amts h
    simp only [buildOutputs] at h
    cases hc : step o out with
    | error e => rw [hc] at h; cases h
    | ok q =>
      rw [hc] at h
      dsimp only at h
      cases hrec : buildOutputs step (o + 1) t with
      | error e => rw [hrec] at h; cases h
      | ok rest5 =>
        obtain ⟨Rs2, rA8s2, aks2, oks2, amts2⟩ := rest5
        rw [hrec] at h
        dsimp only at h
        cases h
        simp only [List.map_cons]
        rw [ih (o + 1) Rs2 rA8s2 aks2 oks2 amts2 hrec]

/-- C2: with `net = Σ input amounts − Σ output amounts − fee`,
`spendable_transaction` fails when `net < 0`; fails when `net = 0` with fewer
than 2 outputs already present; and in every successfully built draft the
output amounts are exactly the requested ones plus (when `net > 0`) one change
output of exactly `net` — so Σ inputs = Σ final outputs + fee, before any
signing step. -/
theorem claim2_conservation (HFn : Bytes → Bytes) (networkBytes : List Bytes)
    (shuffleFn : List SpendableOutput → List SpendableOutput) (rand32 : Bytes)
    (inputs : List OutputInfo) (mixins : List (List Int))
    (outputs : List SpendableOutput) (ring : List (List (Bytes × Bytes)))
    (change : SpendableOutput) (fee : Int)
    (hperm : ∀ lst, (shuffleFn lst).Perm lst) :
    (inputs.foldl (fun a i => a + i.amount) 0 -
        outputs.foldl (fun a o => a + o.amount) 0 - fee < 0 →
      spendable_transaction HFn networkBytes shuffleFn rand32 inputs mixins outputs
        ring change fee = .error .genericExc) ∧
    (inputs.foldl (fun a i => a + i.amount) 0 -
        outputs.foldl (fun a o => a + o.amount) 0 - fee = 0 → outputs.length < 2 →
      spendable_transaction HFn networkBytes shuffleFn rand32 inputs mixins outputs
        ring change fee = .error .genericExc) ∧
    (∀ tx, spendable_transaction HFn networkBytes shuffleFn rand32 inputs mixins outputs
        ring change fee = .ok tx →
      tx.output_amounts.Perm ((outputs.map (fun o => o.amount)) ++
        (if 0 < inputs.foldl (fun a i => a + i.amount) 0 -
            outputs.foldl (fun a o => a + o.amount) 0 - fee then
          [inputs.foldl (fun a i => a + i.amount) 0 -
            outputs.foldl (fun a o => a + o.amount) 0 - fee]
        else [])) ∧
      (inputs.map (fun i => i.amount)).sum = tx.output_amounts.sum + fee) := by
  refine ⟨?_, ?_, ?_⟩
  · intro h
    unfold spendable_transaction
    rw [if_pos h]
  · intro hz hlen
    unfold spendable_transaction
    rw [if_neg (by omega), if_pos hz, if_pos hlen]
  · intro tx htx
    unfold spendable_transaction at htx
    by_cases hneg : inputs.foldl (fun a i => a + i.amount) 0 -
        outputs.foldl (fun a o => a + o.amount) 0 - fee < 0
    · rw [if_pos hneg] at htx; cases htx
    · rw [if_neg hneg] at htx
      by_cases hz : inputs.foldl (fun a i => a + i.amount) 0 -
          outputs.foldl (fun a o => a + o.amount) 0 - fee = 0
      · rw [if_pos hz] at htx
        by_cases hlen : outputs.length < 2
        · rw [if_pos hlen] at htx; cases htx
        · rw [if_neg hlen] at htx
          dsimp only at htx
          cases hemb : embedMixins inputs mixins ring with
          | error e => rw [hemb] at htx; cases htx
          | ok inputs1 =>
            rw [hemb] at htx
            dsimp only at htx
            cases hbo : buildOutputs (buildOneOutput HFn networkBytes (edHs HFn rand32)) 0
                (shuffleFn outputs) with
            | error e => rw [hbo] at htx; cases htx
            | ok res =>
              obtain ⟨Rs, rA8s, aks, oks, amts⟩ := res
              rw [hbo] at htx
              dsimp only at htx
              cases hdd : Rs.dedup with
              | nil => rw [hdd] at htx; cases htx
              | cons R0 rest =>
                rw [hdd] at htx
                dsimp only at htx
                cases htx
                dsimp only
                have hamts : amts = (shuffleFn outputs).map (fun x => x.amount) :=
                  buildOutputs_amounts (buildOneOutput HFn networkBytes (edHs HFn rand32))
                    (shuffleFn outputs) 0 Rs rA8s aks oks amts hbo
                have hpermm : amts.Perm (outputs.map (fun o => o.amount)) := by
                  rw [hamts]
                  exact (hperm outputs).map (fun x => x.amount)
                constructor
                · rw [if_neg (by omega)]
                  simpa using hpermm
                · have hsum : amts.sum = (outputs.map (fun o => o.amount)).sum :=
                    hpermm.sum_eq
                  have h1 : inputs.foldl (fun a i => a + i.amount) 0 =
                      0 + (inputs.map (fun i => i.amount)).sum :=
                    foldl_add_map _ inputs 0
                  have h2 : outputs.foldl (fun a o => a + o.amount) 0 =
                      0 + (outputs.map (fun o => o.amount)).sum :=
                    foldl_add_map _ outputs 0
                  omega
      · rw [if_neg hz] at htx
        dsimp only at htx
        cases hemb : embedMixins inputs mixins ring with
        | error e => rw [hemb] at htx; cases htx
        | ok inputs1 =>
          rw [hemb] at htx
          dsimp only at htx
          cases hbo : buildOutputs (buildOneOutput HFn networkBytes (edHs HFn rand32)) 0
              (shuffleFn (outputs ++ [{ change with
                amount := inputs.foldl (fun a i => a + i.amount) 0 -
                  outputs.foldl (fun a o => a + o.amount) 0 - fee }])) with
          | error e => rw [hbo] at htx; cases htx
          | ok res =>
            obtain ⟨Rs, rA8s, aks, oks, amts⟩ := res
            rw [hbo] at htx
            dsimp only at htx
            cases hdd : Rs.dedup with
            | nil => rw [hdd] at htx; cases htx
            | cons R0 rest =>
              rw [hdd] at htx
              dsimp only at htx
              cases htx
              dsimp only
              have hamts : amts = (shuffleFn (outputs ++ [{ change with
                  amount := inputs.foldl (fun a i => a + i.amount) 0 -
                    outputs.foldl (fun a o => a + o.amount) 0 - fee }])).map
                    (fun x => x.amount) :=
                buildOutputs_amounts (buildOneOutput HFn networkBytes (edHs HFn rand32)) _ 0
                  Rs rA8s aks oks amts hbo
              have hpermm : amts.Perm ((outputs.map (fun o => o.amount)) ++
                  [inputs.foldl (fun a i => a + i.amount) 0 -
                    outputs.foldl (fun a o => a + o.amount) 0 - fee]) := by
                rw [hamts]
                have hp := (hperm (outputs ++ [{ change with
                  amount := inputs.foldl (fun a i => a + i.amount) 0 -
                    outputs.foldl (fun a o => a + o.amount) 0 - fee }])).map
                  (fun x => x.amount)
                simpa using hp
              constructor
              · rw [if_pos (by omega)]
                exact hpermm
              · have hsum := hpermm.sum_eq
                rw [List.sum_append] at hsum
                have h1 : inputs.foldl (fun a i => a + i.amount) 0 =
                    0 + (inputs.map (fun i => i.amount)).sum :=
                  foldl_add_map _ inputs 0
                have h2 : outputs.foldl (fun a o => a + o.amount) 0 =
                    0 + (outputs.map (fun o => o.amount)).sum :=
                  foldl_add_map _ outputs 0
                simp only [List.sum_cons, List.sum_nil] at hsum
                omega

end Cryptonote

namespace Cryptonote

/-- The zero Keccak oracle used in concrete runs. -/
def H0fix : Bytes → Bytes := fun _ => List.replicate 32 0

/-- Monero mainnet network byte list. -/
def nbFix : List Bytes := [[0x12], [0x13], [0x2A]]

/-- A change template addressed to the base point as both keys (a valid
compressed curve point), standard-network tag. -/
def changeFix : SpendableOutput := ⟨[0x12], encodepoint edB, encodepoint edB, none, 0⟩

/-- C2 witness: the conservation theorem applied at the identity shuffle with
concrete (empty) argument lists. -/
theorem claim2_witness :
    (∀ lst : List SpendableOutput, lst.Perm lst) ∧
    ((([] : List OutputInfo).foldl (fun a i => a + i.amount) 0 -
        ([] : List SpendableOutput).foldl (fun a o => a + o.amount) 0 - 0 < 0 →
      spendable_transaction H0fix nbFix (fun l => l) (List.replicate 32 0) [] [] [] []
        changeFix 0 = .error .genericExc) ∧
    (([] : List OutputInfo).foldl (fun a i => a + i.amount) 0 -
        ([] : List SpendableOutput).foldl (fun a o => a + o.amount) 0 - 0 = 0 →
      ([] : List SpendableOutput).length < 2 →
      spendable_transaction H0fix nbFix (fun l => l) (List.replicate 32 0) [] [] [] []
        changeFix 0 = .error .genericExc) ∧
    (∀ tx, spendable_transaction H0fix nbFix (fun l => l) (List.replicate 32 0) [] [] [] []
        changeFix 0 = .ok tx →
      tx.output_amounts.Perm ((([] : List SpendableOutput).map (fun o => o.amount)) ++
        (if 0 < ([] : List OutputInfo).foldl (fun a i => a + i.amount) 0 -
            ([] : List SpendableOutput).foldl (fun a o => a + o.amount) 0 - 0 then
          [([] : List OutputInfo).foldl (fun a i => a + i.amount) 0 -
            ([] : List SpendableOutput).foldl (fun a o => a + o.amount) 0 - 0]
        else [])) ∧
      (([] : List OutputInfo).map (fun i => i.amount)).sum = tx.output_amounts.sum + 0)) :=
  ⟨fun lst => List.Perm.refl lst,
    claim2_conservation H0fix nbFix (fun l => l) (List.replicate 32 0) [] [] [] []
      changeFix 0 (fun lst => List.Perm.refl lst)⟩

end Cryptonote

namespace Cryptonote

/-! ## C8: address codec (address.py)

The per-variant compiled regexes all have the literal shape
`^[<base58 alphabet>]{N}$`, so they are modelled as a length check plus a
character-set check, with `N` carried by the `CryptoI` fields
`address_regex_len` / `integrated_address_regex_len`. -/

/-- The fixed base58 alphabet of `address.py`. -/
def BASE58chars : List Char :=
  ['1', '2', '3', '4', '5', '6', '7', '8', '9',
   'A', 'B', 'C', 'D', 'E', 'F', 'G', 'H', 'J', 'K', 'L', 'M', 'N',
   'P', 'Q', 'R', 'S', 'T', 'U', 'V', 'W', 'X', 'Y', 'Z',
   'a', 'b', 'c', 'd', 'e', 'f', 'g', 'h', 'i', 'j', 'k', 'm', 'n', 'o',
   'p', 'q', 'r', 's', 't', 'u', 'v', 'w', 'x', 'y', 'z']

/-- The per-variant address regexes, as length + character-set membership. -/
def regexMatch (len : Nat) (s : List Char) : Bool :=
  s.length = len && s.all (fun ch => BASE58chars.contains ch)

/-- Python `int.from_bytes(block, "big")`. -/
def intFromBE (l : Bytes) : Nat := l.foldl (fun acc bb => acc * 256 + bb) 0

/-- The `while blockInt > 0` digit loop (base-58 digits, least significant
first); fuel `n + 1` dominates the digit count. -/
def b58digitsGo : Nat → Nat → List Nat
  | 0, _ => []
  | fuel + 1, n => if n = 0 then [] else n % 58 :: b58digitsGo fuel (n / 58)

/-- Little-endian base-58 digits of `n`. -/
def b58digitsLE (n : Nat) : List Nat := b58digitsGo (n + 1) n

/-- Python `BASE58.index(ch)` (the regex guard guarantees membership). -/
def b58index (ch : Char) : Nat := BASE58chars.indexOf ch

/-- Encode one 8- or 5-byte block: base-58 digits least-significant first,
padded with the zero symbol to 11 (8-byte block) or 7 (5-byte block)
characters, then reversed to most-significant-first. -/
def encodeBlock (block : Bytes) : List Char :=
  let blockInt := intFromBE block
  let blockStr := (b58digitsLE blockInt).map (fun dd => BASE58chars.getD dd '1')
  let blockStr := blockStr ++
    (if block.length = 8 then List.replicate (11 - blockStr.length) '1'
     else if block.length = 5 then List.replicate (7 - blockStr.length) '1'
     else [])
  blockStr.reverse

/-- The Horner accumulation of `Address.parse`
(`blockInt += multi * BASE58.index(char); multi *= 58` over the reversed
block). -/
def decBlockGo : List Char → Nat → Nat → Nat
  | [], _, acc => acc
  | ch :: t, multi, acc => decBlockGo t (multi * 58) (acc + multi * b58index ch)

/-- Python `n.to_bytes(k, "big")` (in-range at the modelled call sites). -/
def toBytesBE : Nat → Nat → Bytes
  | 0, _ => []
  | k + 1, n => toBytesBE k (n / 256) ++ [n % 256]

/-- Decode one 11- or 7-character group back to 8 or 5 bytes (groups of any
other length contribute nothing, as in the source). -/
def decodeBlock (blockStr : List Char) : Bytes :=
  let blockInt := decBlockGo blockStr.reverse 1 0
  if blockStr.length = 11 then toBytesBE 8 blockInt
  else if blockStr.length = 7 then toBytesBE 5 blockInt
  else []

/-- Generic `for i in range(0, len(l), k)` chunk loop: apply `f` to each
`k`-sized chunk and concatenate; each step consumes at least one element, so
fuel `l.length` suffices. -/
def chunksGo {α β : Type} (k : Nat) (f : List α → List β) : Nat → List α → List β
  | 0, _ => []
  | _, [] => []
  | fuel + 1, a :: t => f ((a :: t).take k) ++ chunksGo k f fuel ((a :: t).drop k)

/-- The byte-to-base58 loop of the `Address` constructor. -/
def encodeB58 (data : Bytes) : List Char := chunksGo 8 encodeBlock data.length data

/-- The base58-to-byte loop of `Address.parse`. -/
def decodeB58 (s : List Char) : Bytes := chunksGo 11 decodeBlock s.length s

/-- Python `l[a : -b]` (non-negative `a`, negative stop). -/
def pySliceNegEnd (l : Bytes) (a b : Nat) : Bytes := (l.take (l.length - b)).drop a

/-- Python `l[-a : -b]`. -/
def pySliceNegBoth (l : Bytes) (a b : Nat) : Bytes :=
  (l.take (l.length - b)).drop (l.length - a)

/-- Python `l[-n:]`. -/
def lastN (l : Bytes) (n : Nat) : Bytes := l.drop (l.length - n)

/-- The parsed-address value (`Address` object fields). -/
structure AddressT where
  network : Bytes
  view_key : Bytes
  spend_key : Bytes
  payment_id : Option Bytes
  address : List Char
deriving DecidableEq

/-- Source `Address.__init__` with Keccak as the oracle `HFn`: length
validations; the early-return path when a pre-rendered `address` is supplied
(as `Address.parse` does); otherwise network-byte selection (integrated tag
when a payment id is present, else subaddress tag on three-tag variants, else
standard), optional explicit network byte, payload assembly
`network ++ (leading pid) ++ spend ++ view ++ (trailing pid)`, 4-byte keccak
checksum, and base58 rendering. -/
def Address.create (HFn : Bytes → Bytes) (c : CryptoI) (view_key spend_key : Bytes)
    (payment_id : Option Bytes) (network_byte : Option Bytes)
    (address : Option (List Char)) : Except PyErr AddressT :=
  if ¬(c.network_bytes.length = 2 ∨ c.network_bytes.length = 3) then .error .genericExc
  else if ¬(view_key.length = 32 ∧ spend_key.length = 32) then .error .genericExc
  else if (match payment_id with
           | some pid => !(c.payment_id_lengths.contains pid.length)
           | none => false) then .error .genericExc
  else
    match address with
    | some addr =>
      match network_byte with
      | none => .error .genericExc
      | some nb =>
        if ¬(regexMatch c.address_regex_len addr ∨
            regexMatch c.integrated_address_regex_len addr) then .error .genericExc
        else .ok ⟨nb, view_key, spend_key, payment_id, addr⟩
    | none =>
      let network0 : Bytes :=
        match payment_id with
        | some _ => c.network_bytes.getD 1 []
        | none =>
          if c.network_bytes.length = 3 then c.network_bytes.getD 2 []
          else c.network_bytes.getD 0 []
      match (match network_byte with
             | some nb => if ¬(c.network_bytes.contains nb) then none else some nb
             | none => some network0) with
      | none => .error .genericExc
      | some network =>
        let data : Bytes := network ++
          (match payment_id with
           | some pid => if c.payment_id_leading then pid else []
           | none => []) ++
          spend_key ++ view_key ++
          (match payment_id with
           | some pid => if c.payment_id_leading then [] else pid
           | none => [])
        let data := data ++ pySliceNat (HFn data) 0 4
        .ok ⟨network, view_key, spend_key, payment_id, encodeB58 data⟩

/-- Source `Address.parse` with Keccak as the oracle `HFn`: regex check, base58
decode, payment-id and checksum extraction (by the variant's leading/trailing
placement), checksum verification, network-byte validation (an extracted
payment id forces the integrated tag), key extraction, and the final
constructor call with the address text attached. -/
def Address.parse (HFn : Bytes → Bytes) (c : CryptoI) (addr : List Char) :
    Except PyErr AddressT :=
  if ¬(regexMatch c.address_regex_len addr ∨
      regexMatch c.integrated_address_regex_len addr) then .error .addressError
  else
    let data := decodeB58 addr
    let payment_id_raw :=
      if c.payment_id_leading then pySliceNegEnd data c.network_byte_length 68
      else pySliceNegEnd data (c.network_byte_length + 64) 4
    let payment_id := if payment_id_raw = [] then none else some payment_id_raw
    let checksum := lastN data 4
    if pySliceNat (HFn (data.take (data.length - 4))) 0 4 ≠ checksum then
      .error .addressError
    else
      let network_byte := data.take c.network_byte_length
      if ¬(c.network_bytes.contains network_byte) ∨
          (payment_id ≠ none ∧ network_byte ≠ c.network_bytes.getD 1 []) then
        .error .addressError
      else
        let view_key :=
          if c.payment_id_leading then pySliceNegBoth data 36 4
          else (data.take (c.network_byte_length + 64)).drop (c.network_byte_length + 32)
        let spend_key :=
          if c.payment_id_leading then pySliceNegBoth data 68 36
          else (data.take (c.network_byte_length + 32)).drop c.network_byte_length
        Address.create HFn c view_key spend_key payment_id (some network_byte) (some addr)

end Cryptonote

namespace Cryptonote

/-- Little-endian base-58 value of a digit list. -/
def valLE (l : List Nat) : Nat := l.foldr (fun d acc => d + 58 * acc) 0

lemma b58digitsGo_val : ∀ (fuel n : Nat), n ≤ fuel → valLE (b58digitsGo fuel n) = n := by
  intro fuel
  induction fuel with
  | zero => intro n h; interval_cases n; rfl
  | succ fuel ih =>
    intro n h
    by_cases h0 : n = 0
    · subst h0; simp [b58digitsGo, valLE]
    · rw [b58digitsGo, if_neg h0]
      have hrec : valLE (b58digitsGo fuel (n / 58)) = n / 58 := by
        apply ih
        omega
      simp only [valLE, List.foldr_cons] at hrec ⊢
      rw [hrec]
      omega

lemma b58digitsGo_lt : ∀ (fuel n d : Nat), d ∈ b58digitsGo fuel n → d < 58 := by
  intro fuel
  induction fuel with
  | zero => intro n d h; simp [b58digitsGo] at h
  | succ fuel ih =>
    intro n d h
    by_cases h0 : n = 0
    · subst h0; simp [b58digitsGo] at h
    · rw [b58digitsGo, if_neg h0] at h
      rcases List.mem_cons.mp h with h1 | h2
      · subst h1; omega
      · exact ih _ d h2

lemma b58digitsGo_len : ∀ (fuel n k : Nat), n < 58 ^ k → (b58digitsGo fuel n).length ≤ k := by
  intro fuel
  induction fuel with
  | zero => intro n k _; simp [b58digitsGo]
  | succ fuel ih =>
    intro n k hk
    by_cases h0 : n = 0
    · subst h0; simp [b58digitsGo]
    · rw [b58digitsGo, if_neg h0]
      have hk1 : k ≠ 0 := by
        intro h
        subst h
        simp at hk
        omega
      obtain ⟨k2, rfl⟩ : ∃ k2, k = k2 + 1 := ⟨k - 1, by omega⟩
      have : n / 58 < 58 ^ k2 := by
        rw [pow_succ] at hk
        exact Nat.div_lt_of_lt_mul (by omega)
      simpa using ih (n / 58) k2 this

lemma decBlockGo_spec : ∀ (l : List Char) (multi acc : Nat),
    decBlockGo l multi acc = acc + multi * valLE (l.map b58index) := by
  intro l
  induction l with
  | nil => intro multi acc; simp [decBlockGo, valLE]
  | cons ch t ih =>
    intro multi acc
    rw [decBlockGo, ih]
    simp only [List.map_cons, valLE, List.foldr_cons]
    ring

lemma b58index_getD : ∀ d : Nat, d < 58 → b58index (BASE58chars.getD d '1') = d := by
  decide

lemma getD_mem_BASE58 : ∀ d : Nat, d < 58 → BASE58chars.getD d '1' ∈ BASE58chars := by
  decide

lemma valLE_append_zeros : ∀ (l : List Nat) (k : Nat),
    valLE (l ++ List.replicate k 0) = valLE l := by
  intro l
  induction l with
  | nil =>
    intro k
    simp only [List.nil_append]
    induction k with
    | zero => rfl
    | succ k ihk => simpa [valLE, List.replicate_succ] using ihk
  | cons d t ih =>
    intro k
    simp only [List.cons_append, valLE, List.foldr_cons] at ih ⊢
    rw [ih]

lemma intFromBE_snoc (l : Bytes) (b : Nat) :
    intFromBE (l ++ [b]) = intFromBE l * 256 + b := by
  simp [intFromBE, List.foldl_append]

lemma intFromBE_lt : ∀ (l : Bytes), (∀ b ∈ l, b < 256) → intFromBE l < 256 ^ l.length := by
  intro l
  induction l using List.reverseRecOn with
  | nil => intro _; simp [intFromBE]
  | append_singleton l b ih =>
    intro hb
    rw [intFromBE_snoc]
    have h1 : intFromBE l < 256 ^ l.length := ih (fun x hx => hb x (List.mem_append_left _ hx))
    have h2 : b < 256 := hb b (List.mem_append_right _ (List.mem_singleton_self b))
    simp only [List.length_append, List.length_singleton]
    calc intFromBE l * 256 + b < (intFromBE l + 1) * 256 := by omega
    _ ≤ 256 ^ l.length * 256 := by
        have := h1
        exact Nat.mul_le_mul_right 256 (by omega)
    _ = 256 ^ (l.length + 1) := by rw [pow_succ]

lemma toBytesBE_intFromBE : ∀ (l : Bytes), (∀ b ∈ l, b < 256) →
    toBytesBE l.length (intFromBE l) = l := by
  intro l
  induction l using List.reverseRecOn with
  | nil => intro _; rfl
  | append_singleton l b ih =>
    intro hb
    have h2 : b < 256 := hb b (List.mem_append_right _ (List.mem_singleton_self b))
    rw [intFromBE_snoc]
    simp only [List.length_append, List.length_singleton]
    rw [toBytesBE]
    have hdiv : (intFromBE l * 256 + b) / 256 = intFromBE l := by omega
    have hmod : (intFromBE l * 256 + b) % 256 = b := by omega
    rw [hdiv, hmod, ih (fun x hx => hb x (List.mem_append_left _ hx))]

end Cryptonote

namespace Cryptonote

lemma encodeBlock_eq_8 (block : Bytes) (h8 : block.length = 8) :
    encodeBlock block =
      ((b58digitsLE (intFromBE block)).map (fun dd => BASE58chars.getD dd '1') ++
        List.replicate (11 - (b58digitsLE (intFromBE block)).length) '1').reverse := by
  unfold encodeBlock
  dsimp only
  rw [h8, if_pos rfl, List.length_map]

lemma encodeBlock_eq_5 (block : Bytes) (h5 : block.length = 5) :
    encodeBlock block =
      ((b58digitsLE (intFromBE block)).map (fun dd => BASE58chars.getD dd '1') ++
        List.replicate (7 - (b58digitsLE (intFromBE block)).length) '1').reverse := by
  unfold encodeBlock
  dsimp only
  rw [h5, if_neg (by norm_num), if_pos rfl, List.length_map]

lemma blockRoundCore (block : Bytes) (C : Nat)
    (hn : intFromBE block < 58 ^ C)
    (hE : encodeBlock block =
      ((b58digitsLE (intFromBE block)).map (fun dd => BASE58chars.getD dd '1') ++
        List.replicate (C - (b58digitsLE (intFromBE block)).length) '1').reverse) :
    (encodeBlock block).length = C ∧ (∀ ch ∈ encodeBlock block, ch ∈ BASE58chars) ∧
    decBlockGo (encodeBlock block).reverse 1 0 = intFromBE block := by
  set digits := b58digitsLE (intFromBE block) with hdig
  have hdlt : ∀ d ∈ digits, d < 58 := fun d hd => b58digitsGo_lt _ _ d hd
  have hdlen : digits.length ≤ C := b58digitsGo_len _ _ C hn
  have hval : valLE digits = intFromBE block := b58digitsGo_val _ _ (Nat.le_succ _)
  refine ⟨?_, ?_, ?_⟩
  · rw [hE]
    simp only [List.length_reverse, List.length_append, List.length_map,
      List.length_replicate]
    omega
  · intro ch hch
    rw [hE] at hch
    simp only [List.mem_reverse, List.mem_append, List.mem_map,
      List.mem_replicate] at hch
    rcases hch with ⟨d, hd, rfl⟩ | ⟨-, rfl⟩
    · exact getD_mem_BASE58 d (hdlt d hd)
    · decide
  · rw [hE, List.reverse_reverse, decBlockGo_spec]
    simp only [List.map_append, List.map_map, List.map_replicate]
    have h1 : digits.map (b58index ∘ fun dd => BASE58chars.getD dd '1') = digits := by
      have := List.map_congr_left (l := digits)
        (f := b58index ∘ fun dd => BASE58chars.getD dd '1') (g := id)
        (fun d hd => b58index_getD d (hdlt d hd))
      rwa [List.map_id] at this
    have h2 : b58index '1' = 0 := by decide
    rw [h1, h2, valLE_append_zeros, hval]
    omega

lemma decodeBlock_encodeBlock_8 (block : Bytes) (hb : ∀ b ∈ block, b < 256)
    (h8 : block.length = 8) :
    (encodeBlock block).length = 11 ∧ (∀ ch ∈ encodeBlock block, ch ∈ BASE58chars) ∧
    decodeBlock (encodeBlock block) = block := by
  have hn : intFromBE block < 58 ^ 11 := by
    have h1 := intFromBE_lt block hb
    rw [h8] at h1
    calc intFromBE block < 256 ^ 8 := h1
    _ ≤ 58 ^ 11 := by norm_num
  obtain ⟨hL, hc, hdec⟩ := blockRoundCore block 11 hn (encodeBlock_eq_8 block h8)
  refine ⟨hL, hc, ?_⟩
  unfold decodeBlock
  dsimp only
  rw [hL, if_pos rfl, hdec, ← h8]
  exact toBytesBE_intFromBE block hb

lemma decodeBlock_encodeBlock_5 (block : Bytes) (hb : ∀ b ∈ block, b < 256)
    (h5 : block.length = 5) :
    (encodeBlock block).length = 7 ∧ (∀ ch ∈ encodeBlock block, ch ∈ BASE58chars) ∧
    decodeBlock (encodeBlock block) = block := by
  have hn : intFromBE block < 58 ^ 7 := by
    have h1 := intFromBE_lt block hb
    rw [h5] at h1
    calc intFromBE block < 256 ^ 5 := h1
    _ ≤ 58 ^ 7 := by norm_num
  obtain ⟨hL, hc, hdec⟩ := blockRoundCore block 7 hn (encodeBlock_eq_5 block h5)
  refine ⟨hL, hc, ?_⟩
  unfold decodeBlock
  dsimp only
  rw [hL, if_neg (by norm_num), if_pos rfl, hdec, ← h5]
  exact toBytesBE_intFromBE block hb

end Cryptonote

namespace Cryptonote

lemma chunksGo_nil {α β : Type} (k : Nat) (f : List α → List β) :
    ∀ fuel, chunksGo k f fuel ([] : List α) = [] := by
  intro fuel
  cases fuel <;> rfl

lemma chunksGo_fuel {α β : Type} (k : Nat) (f : List α → List β) (hk : 0 < k) :
    ∀ (f1 : Nat) (l : List α) (f2 : Nat), l.length ≤ f1 → l.length ≤ f2 →
      chunksGo k f f1 l = chunksGo k f f2 l := by
  intro f1
  induction f1 with
  | zero =>
    intro l f2 h1 _
    have : l = [] := List.length_eq_zero.mp (by omega)
    subst this
    rw [chunksGo_nil, chunksGo_nil]
  | succ f1 ih =>
    intro l f2 h1 h2
    cases l with
    | nil => rw [chunksGo_nil, chunksGo_nil]
    | cons a t =>
      cases f2 with
      | zero => simp at h2
      | succ g2 =>
        simp only [chunksGo]
        congr 1
        apply ih
        · simp only [List.length_drop, List.length_cons] at *
          omega
        · simp only [List.length_drop, List.length_cons] at *
          omega

lemma encodeB58_cons (data : Bytes) (h : data ≠ []) :
    encodeB58 data = encodeBlock (data.take 8) ++ encodeB58 (data.drop 8) := by
  cases data with
  | nil => exact absurd rfl h
  | cons a t =>
    show chunksGo 8 encodeBlock (a :: t).length (a :: t) = _
    simp only [List.length_cons, chunksGo]
    congr 1
    apply chunksGo_fuel 8 encodeBlock (by omega)
    · simp only [List.length_drop, List.length_cons]
      omega
    · exact le_refl _

lemma decodeB58_cons (s : List Char) (h : s ≠ []) :
    decodeB58 s = decodeBlock (s.take 11) ++ decodeB58 (s.drop 11) := by
  cases s with
  | nil => exact absurd rfl h
  | cons a t =>
    show chunksGo 11 decodeBlock (a :: t).length (a :: t) = _
    simp only [List.length_cons, chunksGo]
    congr 1
    apply chunksGo_fuel 11 decodeBlock (by omega)
    · simp only [List.length_drop, List.length_cons]
      omega
    · exact le_refl _

lemma b58_roundtrip : ∀ (n : Nat) (data : Bytes), data.length = n →
    (∀ b ∈ data, b < 256) → (n % 8 = 0 ∨ n % 8 = 5) →
    decodeB58 (encodeB58 data) = data ∧
    (encodeB58 data).length = 11 * (n / 8) + (if n % 8 = 5 then 7 else 0) ∧
    (∀ ch ∈ encodeB58 data, ch ∈ BASE58chars) := by
  intro n
  induction n using Nat.strong_induction_on with
  | _ n ih =>
    intro data hlen hb hmod
    by_cases h0 : data = []
    · subst h0
      simp only [List.length_nil] at hlen
      subst hlen
      refine ⟨rfl, ?_, ?_⟩
      · rw [show encodeB58 [] = [] from rfl]
        norm_num
      · intro ch hch
        simp [encodeB58, chunksGo] at hch
    · have hn0 : n ≠ 0 := fun h =>
        h0 (List.length_eq_zero.mp (hlen.trans h))
      by_cases hsmall : n < 8
      · have h5 : n = 5 := by omega
        subst h5
        have htake : data.take 8 = data := List.take_of_length_le (by omega)
        have hdrop : data.drop 8 = [] := List.drop_eq_nil_of_le (by omega)
        have hE : encodeB58 data = encodeBlock data := by
          rw [encodeB58_cons data h0, htake, hdrop]
          show _ ++ chunksGo 8 encodeBlock 0 [] = _
          rw [chunksGo_nil, List.append_nil]
        obtain ⟨hL, hc, hdec⟩ := decodeBlock_encodeBlock_5 data hb hlen
        refine ⟨?_, ?_, ?_⟩
        · rw [hE, decodeB58_cons _ (by intro hnil; rw [hnil] at hL; simp at hL)]
          rw [List.take_of_length_le (by omega), List.drop_eq_nil_of_le (by omega)]
          show decodeBlock (encodeBlock data) ++ chunksGo 11 decodeBlock 0 [] = _
          rw [chunksGo_nil, List.append_nil, hdec]
        · rw [hE, hL]
          norm_num
        · rw [hE]; exact hc
      · have h8le : 8 ≤ n := by omega
        set A := data.take 8 with hA
        set rest := data.drop 8 with hrest
        have hAlen : A.length = 8 := by
          rw [hA, List.length_take]; omega
        have hrestlen : rest.length = n - 8 := by
          rw [hrest, List.length_drop, hlen]
        have hbA : ∀ b ∈ A, b < 256 := fun b hb2 => hb b (List.mem_of_mem_take hb2)
        have hbR : ∀ b ∈ rest, b < 256 := fun b hb2 => hb b (List.mem_of_mem_drop hb2)
        obtain ⟨hdecR, hlenR, hcR⟩ := ih (n - 8) (by omega) rest hrestlen hbR (by omega)
        obtain ⟨hLA, hcA, hdecA⟩ := decodeBlock_encodeBlock_8 A hbA hAlen
        have hE : encodeB58 data = encodeBlock A ++ encodeB58 rest := encodeB58_cons data h0
        refine ⟨?_, ?_, ?_⟩
        · rw [hE, decodeB58_cons _ (by
            intro hnil
            have := congrArg List.length hnil
            simp only [List.length_append, hLA, List.length_nil] at this
            omega)]
          rw [← hLA, List.take_left, List.drop_left, hdecA, hdecR]
          rw [hA, hrest, List.take_append_drop]
        · rw [hE, List.length_append, hLA, hlenR]
          rcases hmod with hm | hm
          · rw [if_neg (by omega), if_neg (by omega)]
            omega
          · rw [if_pos (by omega), if_pos (by omega)]
            omega
        · rw [hE]
          intro ch hch
          rcases List.mem_append.mp hch with h1 | h1
          · exact hcA ch h1
          · exact hcR ch h1

end Cryptonote

namespace Cryptonote

lemma contains_of_mem {α : Type} [BEq α] [LawfulBEq α] (l : List α) (a : α)
    (h : a ∈ l) : l.contains a = true :=
  List.elem_iff.mpr h

lemma getD_mem_of_lt {α : Type} (l : List α) (n : Nat) (d : α) (h : n < l.length) :
    l.getD n d ∈ l := by
  rw [List.getD_eq_getElem l d h]
  exact List.getElem_mem h

lemma take_pref (p s : Bytes) (a : Nat) (hp : p.length = a) : (p ++ s).take a = p :=
  List.take_left' hp

lemma lastN_spec (p s : Bytes) (n : Nat) (hs : s.length = n) : lastN (p ++ s) n = s := by
  unfold lastN
  apply List.drop_left'
  simp only [List.length_append]
  omega

lemma pySliceNegEnd_spec (data p m s : Bytes) (a b : Nat)
    (hdata : data = p ++ m ++ s) (hp : p.length = a) (hs : s.length = b) :
    pySliceNegEnd data a b = m := by
  subst hdata
  unfold pySliceNegEnd
  have h1 : (p ++ m ++ s).take ((p ++ m ++ s).length - b) = p ++ m := by
    apply List.take_left'
    simp only [List.length_append]
    omega
  rw [h1]
  exact List.drop_left' hp

lemma pySliceNegBoth_spec (data p m s : Bytes) (a b : Nat)
    (hdata : data = p ++ m ++ s) (hs : s.length = b) (hm : m.length + b = a) :
    pySliceNegBoth data a b = m := by
  subst hdata
  unfold pySliceNegBoth
  have h1 : (p ++ m ++ s).take ((p ++ m ++ s).length - b) = p ++ m := by
    apply List.take_left'
    simp only [List.length_append]
    omega
  rw [h1]
  apply List.drop_left'
  simp only [List.length_append]
  omega

lemma sliceTake_spec (data p m s : Bytes) (a b : Nat)
    (hdata : data = p ++ m ++ s) (hp : p.length = a) (hpm : p.length + m.length = b) :
    (data.take b).drop a = m := by
  subst hdata
  have h1 : (p ++ m ++ s).take b = p ++ m := by
    apply List.take_left'
    simp only [List.length_append]
    omega
  rw [h1]
  exact List.drop_left' hp

lemma takeNB_spec (data p s : Bytes) (a : Nat)
    (hdata : data = p ++ s) (hp : p.length = a) : data.take a = p := by
  subst hdata
  exact List.take_left' hp

end Cryptonote

namespace Cryptonote

/-- The network tag `Address.__init__` picks when none is forced. -/
def defaultNetwork (c : CryptoI) (pidOpt : Option Bytes) : Bytes :=
  match pidOpt with
  | some _ => c.network_bytes.getD 1 []
  | none =>
    if c.network_bytes.length = 3 then c.network_bytes.getD 2 []
    else c.network_bytes.getD 0 []

/-- The checksummed payload `Address.__init__` renders to base58. -/
def addressPayload (HFn : Bytes → Bytes) (c : CryptoI) (viewK spendK : Bytes)
    (pidOpt : Option Bytes) : Bytes :=
  let data : Bytes := defaultNetwork c pidOpt ++
    (match pidOpt with
     | some pid => if c.payment_id_leading then pid else []
     | none => []) ++
    spendK ++ viewK ++
    (match pidOpt with
     | some pid => if c.payment_id_leading then [] else pid
     | none => [])
  data ++ pySliceNat (HFn data) 0 4

lemma Address_create_none_eq (HFn : Bytes → Bytes) (c : CryptoI) (viewK spendK : Bytes)
    (pidOpt : Option Bytes)
    (h1 : c.network_bytes.length = 2 ∨ c.network_bytes.length = 3)
    (h2 : viewK.length = 32 ∧ spendK.length = 32)
    (h3 : (match pidOpt with
           | some pid => !(c.payment_id_lengths.contains pid.length)
           | none => false) = false) :
    Address.create HFn c viewK spendK pidOpt none none =
      Except.ok ⟨defaultNetwork c pidOpt, viewK, spendK, pidOpt,
        encodeB58 (addressPayload HFn c viewK spendK pidOpt)⟩ := by
  unfold Address.create
  rw [if_neg (not_not_intro h1), if_neg (not_not_intro h2),
    if_neg (by rw [h3]; exact Bool.false_ne_true)]
  rfl

lemma Address_create_some_eq (HFn : Bytes → Bytes) (c : CryptoI) (viewK spendK : Bytes)
    (pidOpt : Option Bytes) (network : Bytes) (addr : List Char)
    (h1 : c.network_bytes.length = 2 ∨ c.network_bytes.length = 3)
    (h2 : viewK.length = 32 ∧ spendK.length = 32)
    (h3 : (match pidOpt with
           | some pid => !(c.payment_id_lengths.contains pid.length)
           | none => false) = false)
    (hreg : regexMatch c.address_regex_len addr ∨
      regexMatch c.integrated_address_regex_len addr) :
    Address.create HFn c viewK spendK pidOpt (some network) (some addr) =
      Except.ok ⟨network, viewK, spendK, pidOpt, addr⟩ := by
  unfold Address.create
  rw [if_neg (not_not_intro h1), if_neg (not_not_intro h2),
    if_neg (by rw [h3]; exact Bool.false_ne_true)]
  dsimp only
  rw [if_neg (not_not_intro hreg)]

end Cryptonote

namespace Cryptonote

lemma Address_parse_eval (HFn : Bytes → Bytes) (c : CryptoI) (addr : List Char)
    (network spendK viewK : Bytes) (pidOpt : Option Bytes) (data : Bytes)
    (hreg : regexMatch c.address_regex_len addr ∨
      regexMatch c.integrated_address_regex_len addr)
    (hdec : decodeB58 addr = data)
    (hpidslice : (if c.payment_id_leading then pySliceNegEnd data c.network_byte_length 68
        else pySliceNegEnd data (c.network_byte_length + 64) 4) =
      (match pidOpt with | some p => p | none => []))
    (hpidne : ∀ p, pidOpt = some p → p ≠ [])
    (hcs : pySliceNat (HFn (data.take (data.length - 4))) 0 4 = lastN data 4)
    (hnbslice : data.take c.network_byte_length = network)
    (hmem : network ∈ c.network_bytes)
    (hint : pidOpt ≠ none → network = c.network_bytes.getD 1 [])
    (hview : (if c.payment_id_leading then pySliceNegBoth data 36 4
        else (data.take (c.network_byte_length + 64)).drop (c.network_byte_length + 32)) = viewK)
    (hspend : (if c.payment_id_leading then pySliceNegBoth data 68 36
        else (data.take (c.network_byte_length + 32)).drop c.network_byte_length) = spendK)
    (h1 : c.network_bytes.length = 2 ∨ c.network_bytes.length = 3)
    (h2 : viewK.length = 32 ∧ spendK.length = 32)
    (h3 : (match pidOpt with
           | some pid => !(c.payment_id_lengths.contains pid.length)
           | none => false) = false) :
    Address.parse HFn c addr = Except.ok ⟨network, viewK, spendK, pidOpt, addr⟩ := by
  unfold Address.parse
  rw [if_neg (not_not_intro hreg)]
  dsimp only
  rw [hdec, hpidslice]
  have hcont := contains_of_mem _ _ hmem
  rcases pidOpt with _ | p
  · have hpn : (if ([] : Bytes) = [] then (none : Option Bytes) else some []) = none := by
      simp
    rw [hpn, if_neg (not_not_intro hcs), hnbslice]
    rw [if_neg (by
      rintro (hno | ⟨hne, -⟩)
      · exact hno hcont
      · exact hne rfl)]
    rw [hview, hspend]
    exact Address_create_some_eq HFn c viewK spendK none network addr h1 h2 h3 hreg
  · have hne := hpidne p rfl
    have hps : (if p = ([] : Bytes) then (none : Option Bytes) else some p) = some p :=
      if_neg hne
    rw [hps, if_neg (not_not_intro hcs), hnbslice]
    have hnet := hint (by simp)
    rw [if_neg (by
      rintro (hno | ⟨-, hne2⟩)
      · exact hno hcont
      · exact hne2 hnet)]
    rw [hview, hspend]
    exact Address_create_some_eq HFn c viewK spendK (some p) network addr h1 h2 h3 hreg

end Cryptonote

namespace Cryptonote


/-- Length contributed by an optional payment id. -/
def pidLen : Option Bytes → Nat
  | some p => p.length
  | none => 0

/-- Which variant regex applies (standard without a payment id, integrated
with one). -/
def regexLenFor (c : CryptoI) : Option Bytes → Nat
  | none => c.address_regex_len
  | some _ => c.integrated_address_regex_len

/-- The payment-id bytes placed before the keys (leading variants). -/
def pidFront (c : CryptoI) : Option Bytes → Bytes
  | some pp => if c.payment_id_leading then pp else []
  | none => []

/-- The payment-id bytes placed after the keys (trailing variants). -/
def pidBack (c : CryptoI) : Option Bytes → Bytes
  | some pp => if c.payment_id_leading then [] else pp
  | none => []

/-- The pre-checksum payload laid out by `Address.__init__`. -/
def payloadBase (c : CryptoI) (viewK spendK : Bytes) (pidOpt : Option Bytes) : Bytes :=
  defaultNetwork c pidOpt ++ pidFront c pidOpt ++ spendK ++ viewK ++ pidBack c pidOpt

lemma addressPayload_eq (HFn : Bytes → Bytes) (c : CryptoI) (viewK spendK : Bytes)
    (pidOpt : Option Bytes) :
    addressPayload HFn c viewK spendK pidOpt =
      payloadBase c viewK spendK pidOpt ++
        pySliceNat (HFn (payloadBase c viewK spendK pidOpt)) 0 4 := by
  rcases pidOpt with _ | p <;> rfl

lemma pidGuard_false_iff (c : CryptoI) (pid : Option Bytes) :
    ((match pid with
      | some pid => !(c.payment_id_lengths.contains pid.length)
      | none => false) = false) ↔
    (∀ p, pid = some p → c.payment_id_lengths.contains p.length = true) := by
  rcases pid with _ | p
  · simp
  · simp

lemma pidFront_some_lead (c : CryptoI) (p : Bytes) (h : c.payment_id_leading = true) :
    pidFront c (some p) = p := by
  simp [pidFront, h]

lemma pidFront_some_trail (c : CryptoI) (p : Bytes) (h : ¬c.payment_id_leading = true) :
    pidFront c (some p) = [] := by
  simp [pidFront, h]

lemma pidBack_some_lead (c : CryptoI) (p : Bytes) (h : c.payment_id_leading = true) :
    pidBack c (some p) = [] := by
  simp [pidBack, h]

lemma pidBack_some_trail (c : CryptoI) (p : Bytes) (h : ¬c.payment_id_leading = true) :
    pidBack c (some p) = p := by
  simp [pidBack, h]

lemma pidFB_length (c : CryptoI) (pid : Option Bytes) :
    (pidFront c pid).length + (pidBack c pid).length = pidLen pid := by
  rcases pid with _ | p
  · rfl
  · by_cases hl : c.payment_id_leading = true
    · rw [pidFront_some_lead c p hl, pidBack_some_lead c p hl]
      simp [pidLen]
    · rw [pidFront_some_trail c p hl, pidBack_some_trail c p hl]
      simp [pidLen]

lemma pidFront_bytes (c : CryptoI) (pid : Option Bytes)
    (h : ∀ p, pid = some p → ∀ b ∈ p, b < 256) : ∀ b ∈ pidFront c pid, b < 256 := by
  rcases pid with _ | p
  · intro b hb
    simp [pidFront] at hb
  · intro b hb
    by_cases hl : c.payment_id_leading = true
    · rw [pidFront_some_lead c p hl] at hb
      exact h p rfl b hb
    · rw [pidFront_some_trail c p hl] at hb
      simp at hb

lemma pidBack_bytes (c : CryptoI) (pid : Option Bytes)
    (h : ∀ p, pid = some p → ∀ b ∈ p, b < 256) : ∀ b ∈ pidBack c pid, b < 256 := by
  rcases pid with _ | p
  · intro b hb
    simp [pidBack] at hb
  · intro b hb
    by_cases hl : c.payment_id_leading = true
    · rw [pidBack_some_lead c p hl] at hb
      simp at hb
    · rw [pidBack_some_trail c p hl] at hb
      exact h p rfl b hb

end Cryptonote

namespace Cryptonote

/-- C8: address round-trip.  For every protocol variant (well-formed parameter
set), every pair of 32-byte view/spend keys, and every payment id of a length
valid for the variant (or no payment id), `Address.parse` applied to the text
produced by the `Address` constructor recovers exactly the same network tag,
view key, spend key, and payment id as were encoded. -/
theorem claim8_address_roundtrip (HFn : Bytes → Bytes) (c : CryptoI)
    (view spend : Bytes) (pid : Option Bytes)
    (hH : ∀ x, (HFn x).length = 32 ∧ ∀ b ∈ HFn x, b < 256)
    (hnbl : c.network_bytes.length = 2 ∨ c.network_bytes.length = 3)
    (hnb : ∀ nb ∈ c.network_bytes, nb.length = c.network_byte_length ∧ ∀ b ∈ nb, b < 256)
    (hview : view.length = 32 ∧ ∀ b ∈ view, b < 256)
    (hspend : spend.length = 32 ∧ ∀ b ∈ spend, b < 256)
    (hpid : ∀ p, pid = some p →
      c.payment_id_lengths.contains p.length = true ∧ 0 < p.length ∧ ∀ b ∈ p, b < 256)
    (hmod : (c.network_byte_length + pidLen pid + 68) % 8 = 0 ∨
      (c.network_byte_length + pidLen pid + 68) % 8 = 5)
    (hreg : regexLenFor c pid =
      11 * ((c.network_byte_length + pidLen pid + 68) / 8) +
        (if (c.network_byte_length + pidLen pid + 68) % 8 = 5 then 7 else 0)) :
    ∃ a : AddressT,
      Address.create HFn c view spend pid none none = Except.ok a ∧
      a.network ∈ c.network_bytes ∧ a.view_key = view ∧ a.spend_key = spend ∧
      a.payment_id = pid ∧
      Address.parse HFn c a.address = Except.ok a := by
  have h2 : view.length = 32 ∧ spend.length = 32 := ⟨hview.1, hspend.1⟩
  have h3 := (pidGuard_false_iff c pid).mpr (fun p hp => (hpid p hp).1)
  have hpidne : ∀ p', pid = some p' → p' ≠ [] := by
    intro p' hp' hnil
    have hlen := (hpid p' hp').2.1
    rw [hnil] at hlen
    simp at hlen
  obtain ⟨network, hnet⟩ : ∃ nb, defaultNetwork c pid = nb := ⟨_, rfl⟩
  have hmemN : network ∈ c.network_bytes := by
    rw [← hnet]
    rcases pid with _ | p
    · unfold defaultNetwork
      by_cases h3' : c.network_bytes.length = 3
      · rw [if_pos h3']
        exact getD_mem_of_lt _ 2 _ (by omega)
      · rw [if_neg h3']
        have h2' : c.network_bytes.length = 2 := by
          rcases hnbl with h | h
          · exact h
          · exact absurd h h3'
        exact getD_mem_of_lt _ 0 _ (by omega)
    · exact getD_mem_of_lt _ 1 _ (by rcases hnbl with h | h <;> omega)
  obtain ⟨hNlen, hNb⟩ := hnb network hmemN
  have hint : pid ≠ none → network = c.network_bytes.getD 1 [] := by
    rcases pid with _ | p
    · intro hne
      exact absurd rfl hne
    · intro _
      rw [← hnet]
      rfl
  obtain ⟨data0, hdata0⟩ : ∃ d, payloadBase c view spend pid = d := ⟨_, rfl⟩
  have hd0 : data0 = network ++ pidFront c pid ++ spend ++ view ++ pidBack c pid := by
    rw [← hdata0, ← hnet]
    rfl
  obtain ⟨csum, hcsum⟩ : ∃ cs, pySliceNat (HFn data0) 0 4 = cs := ⟨_, rfl⟩
  obtain ⟨data, hdataEq⟩ : ∃ dd, data0 ++ csum = dd := ⟨_, rfl⟩
  have hcsLen : csum.length = 4 := by
    rw [← hcsum]
    unfold pySliceNat
    simp [(hH data0).1]
  have hcsB : ∀ b ∈ csum, b < 256 := by
    intro b hb
    rw [← hcsum] at hb
    unfold pySliceNat at hb
    exact (hH data0).2 b (List.mem_of_mem_take (List.mem_of_mem_drop hb))
  have hdataLen : data.length = c.network_byte_length + pidLen pid + 68 := by
    rw [← hdataEq, hd0]
    simp only [List.length_append, hNlen, hview.1, hspend.1, hcsLen]
    have hfb := pidFB_length c pid
    omega
  have hdataB : ∀ b ∈ data, b < 256 := by
    rw [← hdataEq, hd0]
    intro b hb
    simp only [List.mem_append] at hb
    rcases hb with ((((hb | hb) | hb) | hb) | hb) | hb
    · exact hNb b hb
    · exact pidFront_bytes c pid (fun p hp => (hpid p hp).2.2) b hb
    · exact hspend.2 b hb
    · exact hview.2 b hb
    · exact pidBack_bytes c pid (fun p hp => (hpid p hp).2.2) b hb
    · exact hcsB b hb
  obtain ⟨hrt, hlenE, hchars⟩ :=
    b58_roundtrip (c.network_byte_length + pidLen pid + 68) data hdataLen hdataB hmod
  obtain ⟨addr, haddr⟩ : ∃ s, encodeB58 data = s := ⟨_, rfl⟩
  rw [haddr] at hrt hlenE hchars
  have hregM : regexMatch c.address_regex_len addr ∨
      regexMatch c.integrated_address_regex_len addr := by
    have hmatch : regexMatch (regexLenFor c pid) addr = true := by
      rw [hreg]
      simp only [regexMatch, Bool.and_eq_true, decide_eq_true_eq, List.all_eq_true]
      exact ⟨hlenE, fun ch hch => contains_of_mem _ _ (hchars ch hch)⟩
    rcases pid with _ | p
    · exact Or.inl hmatch
    · exact Or.inr hmatch
  have ht0 : data.take (data.length - 4) = data0 := by
    rw [← hdataEq]
    apply List.take_left'
    simp only [List.length_append, hcsLen]
    omega
  have hcsq : pySliceNat (HFn (data.take (data.length - 4))) 0 4 = lastN data 4 := by
    rw [ht0]
    have hlast : lastN data 4 = csum := by
      rw [← hdataEq]
      exact lastN_spec data0 csum 4 hcsLen
    rw [hlast]
    exact hcsum
  have hnbslice : data.take c.network_byte_length = network := by
    apply takeNB_spec data network
      (pidFront c pid ++ (spend ++ (view ++ (pidBack c pid ++ csum))))
    · rw [← hdataEq, hd0]
      simp [List.append_assoc]
    · exact hNlen
  have hcreate : Address.create HFn c view spend pid none none =
      Except.ok ⟨network, view, spend, pid, addr⟩ := by
    rw [Address_create_none_eq HFn c view spend pid hnbl h2 h3, addressPayload_eq,
      hdata0, hcsum, hdataEq, hnet, haddr]
  have hparse : Address.parse HFn c addr = Except.ok ⟨network, view, spend, pid, addr⟩ := by
    rcases pid with _ | p
    · by_cases hlead : c.payment_id_leading = true
      · apply Address_parse_eval HFn c addr network spend view none data hregM hrt ?pidslice
          hpidne hcsq hnbslice hmemN hint ?viewslice ?spendslice hnbl h2 h3
        case pidslice =>
          rw [if_pos hlead]
          apply pySliceNegEnd_spec data network [] (spend ++ (view ++ csum))
            c.network_byte_length 68
          · rw [← hdataEq, hd0]
            simp [pidFront, pidBack, List.append_assoc]
          · exact hNlen
          · simp [hspend.1, hview.1, hcsLen]
        case viewslice =>
          rw [if_pos hlead]
          apply pySliceNegBoth_spec data (network ++ spend) view csum 36 4
          · rw [← hdataEq, hd0]
            simp [pidFront, pidBack, List.append_assoc]
          · exact hcsLen
          · rw [hview.1]
        case spendslice =>
          rw [if_pos hlead]
          apply pySliceNegBoth_spec data network spend (view ++ csum) 68 36
          · rw [← hdataEq, hd0]
            simp [pidFront, pidBack, List.append_assoc]
          · simp [hview.1, hcsLen]
          · rw [hspend.1]
      · apply Address_parse_eval HFn c addr network spend view none data hregM hrt ?pidslice
          hpidne hcsq hnbslice hmemN hint ?viewslice ?spendslice hnbl h2 h3
        case pidslice =>
          rw [if_neg hlead]
          apply pySliceNegEnd_spec data (network ++ (spend ++ view)) [] csum
            (c.network_byte_length + 64) 4
          · rw [← hdataEq, hd0]
            simp [pidFront, pidBack, List.append_assoc]
          · simp [hNlen, hspend.1, hview.1]
          · exact hcsLen
        case viewslice =>
          rw [if_neg hlead]
          apply sliceTake_spec data (network ++ spend) view csum
            (c.network_byte_length + 32) (c.network_byte_length + 64)
          · rw [← hdataEq, hd0]
            simp [pidFront, pidBack, List.append_assoc]
          · simp [hNlen, hspend.1]
          · simp [hNlen, hspend.1, hview.1]
        case spendslice =>
          rw [if_neg hlead]
          apply sliceTake_spec data network spend (view ++ csum)
            c.network_byte_length (c.network_byte_length + 32)
          · rw [← hdataEq, hd0]
            simp [pidFront, pidBack, List.append_assoc]
          · exact hNlen
          · simp [hNlen, hspend.1]
    · by_cases hlead : c.payment_id_leading = true
      · apply Address_parse_eval HFn c addr network spend view (some p) data hregM hrt
          ?pidslice hpidne hcsq hnbslice hmemN hint ?viewslice ?spendslice hnbl h2 h3
        case pidslice =>
          rw [if_pos hlead]
          apply pySliceNegEnd_spec data network p (spend ++ (view ++ csum))
            c.network_byte_length 68
          · rw [← hdataEq, hd0]
            simp [pidFront_some_lead c p hlead, pidBack_some_lead c p hlead,
              List.append_assoc]
          · exact hNlen
          · simp [hspend.1, hview.1, hcsLen]
        case viewslice =>
          rw [if_pos hlead]
          apply pySliceNegBoth_spec data (network ++ (p ++ spend)) view csum 36 4
          · rw [← hdataEq, hd0]
            simp [pidFront_some_lead c p hlead, pidBack_some_lead c p hlead,
              List.append_assoc]
          · exact hcsLen
          · rw [hview.1]
        case spendslice =>
          rw [if_pos hlead]
          apply pySliceNegBoth_spec data (network ++ p) spend (view ++ csum) 68 36
          · rw [← hdataEq, hd0]
            simp [pidFront_some_lead c p hlead, pidBack_some_lead c p hlead,
              List.append_assoc]
          · simp [hview.1, hcsLen]
          · rw [hspend.1]
      · apply Address_parse_eval HFn c addr network spend view (some p) data hregM hrt
          ?pidslice hpidne hcsq hnbslice hmemN hint ?viewslice ?spendslice hnbl h2 h3
        case pidslice =>
          rw [if_neg hlead]
          apply pySliceNegEnd_spec data (network ++ (spend ++ view)) p csum
            (c.network_byte_length + 64) 4
          · rw [← hdataEq, hd0]
            simp [pidFront_some_trail c p hlead, pidBack_some_trail c p hlead,
              List.append_assoc]
          · simp [hNlen, hspend.1, hview.1]
          · exact hcsLen
        case viewslice =>
          rw [if_neg hlead]
          apply sliceTake_spec data (network ++ spend) view (p ++ csum)
            (c.network_byte_length + 32) (c.network_byte_length + 64)
          · rw [← hdataEq, hd0]
            simp [pidFront_some_trail c p hlead, pidBack_some_trail c p hlead,
              List.append_assoc]
          · simp [hNlen, hspend.1]
          · simp [hNlen, hspend.1, hview.1]
        case spendslice =>
          rw [if_neg hlead]
          apply sliceTake_spec data network spend (view ++ (p ++ csum))
            c.network_byte_length (c.network_byte_length + 32)
          · rw [← hdataEq, hd0]
            simp [pidFront_some_trail c p hlead, pidBack_some_trail c p hlead,
              List.append_assoc]
          · exact hNlen
          · simp [hNlen, hspend.1]
  exact ⟨⟨network, view, spend, pid, addr⟩, hcreate, hmemN, rfl, rfl, rfl, hparse⟩

end Cryptonote

namespace Cryptonote

theorem claim8_witness :
    ∃ a : AddressT,
      Address.create (fun _ => List.replicate 32 7) moneroParamsFix
        (List.replicate 32 1) (List.replicate 32 2) none none none = Except.ok a ∧
      a.network ∈ moneroParamsFix.network_bytes ∧
      a.view_key = List.replicate 32 1 ∧ a.spend_key = List.replicate 32 2 ∧
      a.payment_id = none ∧
      Address.parse (fun _ => List.replicate 32 7) moneroParamsFix a.address =
        Except.ok a :=
  claim8_address_roundtrip (fun _ => List.replicate 32 7) moneroParamsFix
    (List.replicate 32 1) (List.replicate 32 2) none
    (fun _ => ⟨rfl, by intro b hb; simp only [List.mem_replicate] at hb; omega⟩)
    (by decide) (by decide)
    ⟨rfl, by decide⟩ ⟨rfl, by decide⟩ (fun p h => nomatch h) (by decide) (by decide)

end Cryptonote
